import Mathlib

/-!
Verification of the merge engine of the Longitudinal Data Merger
(src/main.py) against its natural-language specification.

Tables are modelled as a header (list of column names) with rows of
optional cells; a missing cell (pandas NaN / null) is `none`.  Cell
values carry the two ground types the claims need: integers and text.
-/

/-- Cell values: integer or text, mirroring the numeric and string
cells a loaded pandas column can hold. -/
inductive Val where
  | intV (n : Int)
  | strV (s : String)
deriving DecidableEq

/-- A cell is either a value or null (pandas NaN / None). -/
abbrev Cell := Option Val

/-- A table: ordered column names plus rows, each row listing the cells
in header order.  This mirrors a pandas DataFrame. -/
structure Table where
  header : List String
  rows : List (List Cell)
deriving DecidableEq

instance : Inhabited Table := ⟨⟨[], []⟩⟩

/-- Index of the first occurrence of a column name in a header, as
pandas resolves a column label positionally. -/
def idxOf? (c : String) : List String → Option Nat
  | [] => none
  | d :: ds => if d = c then some 0 else (idxOf? c ds).map (· + 1)

/-- The cell of row `r` in column `c` for a table with header `hdr`:
the cell at the first index of `c`, or null when the column is absent
or the row is too short. -/
def cellAt (hdr : List String) (r : List Cell) (c : String) : Cell :=
  match idxOf? c hdr with
  | some i => r.getD i none
  | none => none

/-- The column of identifier values of a table, in row order
(the pandas expression df[primary_key]). -/
def keyList (t : Table) (pk : String) : List Cell :=
  t.rows.map (fun r => cellAt t.header r pk)

/-- Rectangularity: every row has exactly one cell per column.  Every
DataFrame produced by the loaders satisfies this. -/
def Table.WF (t : Table) : Prop := ∀ r ∈ t.rows, r.length = t.header.length

instance (t : Table) : Decidable t.WF := by
  unfold Table.WF; infer_instance

/-! ### Duplicate Resolver (src/main.py, remove_duplicates) -/

/-- Rows kept by pandas drop_duplicates(subset=[pk]): the first row for
each identifier value, in original order; `seen` accumulates the
identifier values already emitted. -/
def keepFirstAux (hdr : List String) (pk : String) : List Cell → List (List Cell) → List (List Cell)
  | _, [] => []
  | seen, r :: rs =>
      if cellAt hdr r pk ∈ seen then keepFirstAux hdr pk seen rs
      else r :: keepFirstAux hdr pk (cellAt hdr r pk :: seen) rs

/-- Embedding of remove_duplicates: for each table, when the primary
key name is truthy (non-empty, per the Python test `if primary_key`)
and present in the columns, and the key column has any duplicate,
replace the table by its keep-first de-duplication; otherwise the table
passes through unchanged. -/
def remove_duplicates (tables : List Table) (pk : String) : List Table :=
  tables.map (fun t =>
    if pk ≠ "" ∧ pk ∈ t.header then
      if (keyList t pk).Nodup then t
      else { header := t.header, rows := keepFirstAux t.header pk [] t.rows }
    else t)

/-! ### Validator (src/main.py, primary key validation in the script body) -/

/-- Pandas dtypes the identifier check can observe in this model:
int64 for all-integer columns, float64 for numeric columns containing
nulls (NaN forces a float dtype), object for any column containing
text. -/
inductive Dtype where
  | int64
  | float64
  | object
deriving DecidableEq

/-- Inferred pandas dtype of a column of cells. -/
def dtypeOf (cells : List Cell) : Dtype :=
  if cells.any (fun c => match c with | some (.strV _) => true | _ => false) then .object
  else if cells.any (fun c => c = none) then .float64
  else .int64

/-- One-based indices of the tables lacking the primary key column,
mirroring the enumerate(..., start=1) loop that builds missing_pk. -/
def missingIdxFrom (pk : String) : Nat → List Table → List Nat
  | _, [] => []
  | i, t :: ts => (if pk ∈ t.header then [] else [i]) ++ missingIdxFrom pk (i + 1) ts

/-- Outcome of the validation block in the script body. -/
inductive ValidationOutcome where
  | missingIdentifier (idxs : List Nat)
  | inconsistentType
  | ok (deduped : List Table)
deriving DecidableEq

/-- Embedding of the script body around the primary key: collect the
tables missing the key (error listing them), else compare the pandas
dtypes of the key columns (error when more than one distinct dtype),
else de-duplicate and proceed.  Duplicate resolution and the merges
run only in the `ok` branch, as in the source. -/
def validateAndPrepare (tables : List Table) (pk : String) : ValidationOutcome :=
  let missing := missingIdxFrom pk 1 tables
  if missing ≠ [] then .missingIdentifier missing
  else if ((tables.map (fun t => dtypeOf (keyList t pk))).dedup.length > 1) then .inconsistentType
  else .ok (remove_duplicates tables pk)

/-- Value-type classes named by the specification for the identifier
column: numeric, text, or mixed.  This definition follows the words of
the specification (a refinement comparison target), not the source. -/
inductive SpecClass where
  | numeric
  | text
  | mixed
deriving DecidableEq

/-- Specification-side classifier: a column is numeric when every
non-null cell is a number, text when every non-null cell is a string,
and mixed otherwise.  Follows the words of the specification. -/
def specClassOf (cells : List Cell) : SpecClass :=
  if cells.all (fun c => match c with | some (.strV _) => false | _ => true) then .numeric
  else if cells.all (fun c => match c with | some (.intV _) => false | _ => true) then .text
  else .mixed

/-! ### Long Merge Engine (src/main.py, merge_datasets_long) -/

/-- Wave value written into the Wave column, the f-string w{n}. -/
def waveLabel (w : Nat) : String := "w" ++ toString w

/-- Column suffix used by the wide merge, the f-string _w{n}. -/
def waveSuffix (w : Nat) : String := "_w" ++ toString w

/-- Embedding of the pandas column assignment df[Wave] = label: when a
Wave column already exists its cells are overwritten in place,
otherwise a new Wave column is appended as the last column.  The
source performs this assignment directly on the caller-supplied
DataFrame, so this function also describes the post-call state of each
input table. -/
def setWave (t : Table) (w : Nat) : Table :=
  match idxOf? "Wave" t.header with
  | some j =>
      { header := t.header
        rows := t.rows.map (fun r => r.set j (some (Val.strV (waveLabel w)))) }
  | none =>
      { header := t.header ++ ["Wave"]
        rows := t.rows.map (fun r => r ++ [some (Val.strV (waveLabel w))]) }

/-- Column order produced by pd.concat: the columns of the first table
followed by each later column at its first appearance. -/
def unionHeader (ts : List Table) : List String :=
  ts.foldl (fun acc t => acc ++ t.header.filter (fun c => decide (c ∉ acc))) []

/-- Reindexing of a source row to the concatenated header: each column
takes the source cell, and columns absent from the source table are
null-filled. -/
def alignRow (hdr : List String) (t : Table) (r : List Cell) : List Cell :=
  hdr.map (fun c => cellAt t.header r c)

/-- Concatenation of the image lists of a function, in order. -/
def cmap (f : α → List β) : List α → List β
  | [] => []
  | a :: as => f a ++ cmap f as

/-- Embedding of pd.concat(data_frames, ignore_index=True): the rows of
every table, in table order then row order, aligned to the union
header. -/
def concatTables (ts : List Table) : Table :=
  let hdr := unionHeader ts
  { header := hdr, rows := cmap (fun t => t.rows.map (alignRow hdr t)) ts }

/-- Embedding of set.intersection over the per-table key-value sets, as
a duplicate-free list: the distinct keys of the first table filtered by
membership in every later table.  The Python call raises on an empty
list of tables, so the empty case here is never compared with the
source. -/
def commonIds : List Table → String → List Cell
  | [], _ => []
  | t :: ts, pk =>
      ts.foldl (fun acc u => acc.filter (fun k => decide (k ∈ keyList u pk)))
        ((keyList t pk).dedup)

/-- Result of the long merge: the post-call state of the input tables
(the source mutates them in place), the merged table, and the size of
the key intersection the source returns. -/
structure LongResult where
  tablesAfter : List Table
  merged : Table
  commonCount : Nat
deriving DecidableEq

/-- Embedding of merge_datasets_long: write the wave label into each
table (in place in the source), stack all tables, compute the common
keys from the now-tagged tables, and keep the stacked rows whose key is
common. -/
def merge_datasets_long (tables : List Table) (pk : String) (waves : List Nat) : LongResult :=
  let tagged := (tables.zip waves).map (fun p => setWave p.1 p.2)
  let conc := concatTables tagged
  let common := commonIds tagged pk
  { tablesAfter := tagged
    merged :=
      { header := conc.header
        rows := conc.rows.filter (fun r => decide (cellAt conc.header r pk ∈ common)) }
    commonCount := common.length }

/-- Embedding of the merge button handler for the long mode: a warning
is shown exactly when the actual row count differs from
commonCount times the number of tables. -/
def longMergeWarns (tables : List Table) (pk : String) (waves : List Nat) : Bool :=
  let res := merge_datasets_long tables pk waves
  decide (res.merged.rows.length ≠ res.commonCount * tables.length)

/-! ### Wide Merge Engine (src/main.py, merge_datasets_wide) -/

/-- Join modes offered by the app. -/
inductive JoinType where
  | inner
  | left
  | right
  | outer
deriving DecidableEq

/-- Embedding of the per-table renaming step: every column other than
the primary key gets the wave suffix appended; the primary key is kept
untouched. -/
def renameWide (t : Table) (pk : String) (w : Nat) : Table :=
  { header := t.header.map (fun c => if c = pk then c else c ++ waveSuffix w)
    rows := t.rows }

/-- Suffix rule of pd.merge for overlapping column names: a non-key
column whose name also appears in the other frame gets the given
suffix (the pandas defaults _x and _y). -/
def suffixIf (other : List String) (pk suf c : String) : String :=
  if c ≠ pk ∧ c ∈ other then c ++ suf else c

/-- Rows of a table whose key cell equals `k`, in order. -/
def matchesIn (t : Table) (pk : String) (k : Cell) : List (List Cell) :=
  t.rows.filter (fun r => decide (cellAt t.header r pk = k))

/-- A right-frame row with its key cell removed; pd.merge emits the key
once, from the coalesced key column. -/
def sansKeyRow (right : Table) (pk : String) (r : List Cell) : List Cell :=
  match idxOf? pk right.header with
  | some j => r.eraseIdx j
  | none => r

/-- The right-frame header with the key column removed. -/
def sansKeyHeader (right : Table) (pk : String) : List String :=
  match idxOf? pk right.header with
  | some j => right.header.eraseIdx j
  | none => right.header

/-- Header of a two-frame pd.merge on the key: left columns (suffixed
with _x where overlapping), then the right columns except the key
(suffixed with _y where overlapping). -/
def mergedHeader (left right : Table) (pk : String) : List String :=
  left.header.map (suffixIf right.header pk "_x") ++
    (sansKeyHeader right pk).map (suffixIf left.header pk "_y")

/-- A null-filled left part whose key position carries the key of an
unmatched right row, as pd.merge coalesces the key column. -/
def leftNullWithKey (left : Table) (pk : String) (k : Cell) : List Cell :=
  match idxOf? pk left.header with
  | some i => (List.replicate left.header.length (none : Cell)).set i k
  | none => List.replicate left.header.length none

/-- Rows of an inner join: each left row paired with each matching
right row, left order then right order. -/
def innerJoinRows (left right : Table) (pk : String) : List (List Cell) :=
  cmap (fun l =>
    (matchesIn right pk (cellAt left.header l pk)).map
      (fun r => l ++ sansKeyRow right pk r)) left.rows

/-- Rows of a left join: as the inner join, but an unmatched left row
survives with a null-filled right part. -/
def leftJoinRows (left right : Table) (pk : String) : List (List Cell) :=
  cmap (fun l =>
    let ms := matchesIn right pk (cellAt left.header l pk)
    if ms.isEmpty then [l ++ List.replicate (sansKeyHeader right pk).length none]
    else ms.map (fun r => l ++ sansKeyRow right pk r)) left.rows

/-- Rows of a right join: right rows in order, each with its left
matches, or with a null-filled left part carrying the key. -/
def rightJoinRows (left right : Table) (pk : String) : List (List Cell) :=
  cmap (fun r =>
    let ms := matchesIn left pk (cellAt right.header r pk)
    if ms.isEmpty then [leftNullWithKey left pk (cellAt right.header r pk) ++ sansKeyRow right pk r]
    else ms.map (fun l => l ++ sansKeyRow right pk r)) right.rows

/-- Right rows with no left match, appended by an outer join after the
left-join block. -/
def outerExtraRows (left right : Table) (pk : String) : List (List Cell) :=
  cmap (fun r =>
    if (matchesIn left pk (cellAt right.header r pk)).isEmpty
    then [leftNullWithKey left pk (cellAt right.header r pk) ++ sansKeyRow right pk r]
    else []) right.rows

/-- Row block of a two-frame pd.merge for each join mode. -/
def mergeRows (left right : Table) (pk : String) : JoinType → List (List Cell)
  | .inner => innerJoinRows left right pk
  | .left => leftJoinRows left right pk
  | .right => rightJoinRows left right pk
  | .outer => leftJoinRows left right pk ++ outerExtraRows left right pk

/-- Embedding of pd.merge(left, right, on=pk, how=how): pandas raises
when the key column is absent or ambiguous in either frame, modelled
as `none`; otherwise the merged frame. -/
def mergePair (left right : Table) (pk : String) (how : JoinType) : Option Table :=
  if left.header.count pk = 1 ∧ right.header.count pk = 1 then
    some { header := mergedHeader left right pk, rows := mergeRows left right pk how }
  else none

/-- Embedding of merge_datasets_wide: rename each table with its wave
suffix, then fold pd.merge over the renamed tables left to right.  The
Python reduce raises on an empty list, modelled as `none`. -/
def merge_datasets_wide (tables : List Table) (pk : String) (how : JoinType) (waves : List Nat) : Option Table :=
  match (tables.zip waves).map (fun p => renameWide p.1 pk p.2) with
  | [] => none
  | t :: ts => ts.foldl (fun acc u => acc.bind (fun l => mergePair l u pk how)) (some t)

/-! ### Derived notions used by the statements -/

/-- Set of identifier values of a table. -/
def keyFinset (t : Table) (pk : String) : Finset Cell := (keyList t pk).toFinset

/-- Intersection of the identifier-value sets across a list of tables
(empty for no tables). -/
def interKeys : List Table → String → Finset Cell
  | [], _ => ∅
  | t :: ts, pk => ts.foldl (fun s u => s ∩ keyFinset u pk) (keyFinset t pk)

/-- Non-identifier column names of a table, in order. -/
def nonPk (pk : String) (t : Table) : List String :=
  t.header.filter (fun c => decide (c ≠ pk))

/-- Conditions under which the wave suffixing keeps the renamed column
names unambiguous: at least one table; duplicate-free headers all
containing the key; no suffixed name collides with the key name; and
the suffixed non-key names of distinct tables are pairwise distinct
(all true in particular for distinct wave labels and column names free
of wave-suffix patterns). -/
def WideSane (tables : List Table) (pk : String) (waves : List Nat) : Prop :=
  tables ≠ [] ∧
  (∀ t ∈ tables, t.header.Nodup ∧ pk ∈ t.header) ∧
  (∀ p ∈ tables.zip waves, ∀ c ∈ p.1.header, c ≠ pk → c ++ waveSuffix p.2 ≠ pk) ∧
  (tables.zip waves).Pairwise (fun p q => ∀ c ∈ p.1.header, c ≠ pk →
    ∀ d ∈ q.1.header, d ≠ pk → c ++ waveSuffix p.2 ≠ d ++ waveSuffix q.2)

/-! ## General list helpers -/

/-- idxOf? misses exactly the absent names. -/
theorem idxOf?_eq_none_iff {c : String} {l : List String} : idxOf? c l = none ↔ c ∉ l := by
  induction l with
  | nil => simp [idxOf?]
  | cons d ds ih =>
      simp only [idxOf?, List.mem_cons]
      by_cases h : d = c
      · simp [h]
      · simp only [if_neg h, Option.map_eq_none', ih]
        constructor
        · rintro hnot (rfl | hm)
          · exact h rfl
          · exact hnot hm
        · intro hnot hm
          exact hnot (Or.inr hm)

/-- A found index is in range and points at the name. -/
theorem idxOf?_some {c : String} {l : List String} {i : Nat} (h : idxOf? c l = some i) :
    i < l.length ∧ l.getD i "" = c := by
  induction l generalizing i with
  | nil => simp [idxOf?] at h
  | cons d ds ih =>
      by_cases hd : d = c
      · simp only [idxOf?, if_pos hd, Option.some.injEq] at h
        subst h
        simpa using hd
      · simp only [idxOf?, if_neg hd, Option.map_eq_some'] at h
        obtain ⟨j, hj, rfl⟩ := h
        obtain ⟨h1, h2⟩ := ih hj
        exact ⟨Nat.succ_lt_succ h1, by simpa using h2⟩

/-- Present names have an index. -/
theorem idxOf?_isSome_of_mem {c : String} {l : List String} (h : c ∈ l) :
    ∃ i, idxOf? c l = some i := by
  cases hi : idxOf? c l with
  | none => exact absurd (idxOf?_eq_none_iff.mp hi) (by simp [h])
  | some i => exact ⟨i, rfl⟩

/-- getD through map, inside the range. -/
theorem getD_map_of_lt {α β : Type} {f : α → β} {l : List α} {i : Nat}
    (h : i < l.length) (d : α) (d2 : β) : (l.map f).getD i d2 = f (l.getD i d) := by
  induction l generalizing i with
  | nil => simp at h
  | cons a as ih =>
      cases i with
      | zero => simp
      | succ j =>
          simp only [List.map_cons, List.getD_cons_succ]
          exact ih (Nat.lt_of_succ_lt_succ h)

/-- Reading a mapped header row at a present column yields the image
of the column name. -/
theorem cellAt_map_header {hdr : List String} {f : String → Cell} {c : String} (h : c ∈ hdr) :
    cellAt hdr (hdr.map f) c = f c := by
  obtain ⟨i, hi⟩ := idxOf?_isSome_of_mem h
  obtain ⟨hlt, hval⟩ := idxOf?_some hi
  unfold cellAt
  rw [hi]
  show (hdr.map f).getD i none = f c
  rw [getD_map_of_lt hlt "" none, hval]

/-- An in-range getD returns a member. -/
theorem getD_mem_of_lt {α : Type} {l : List α} {i : Nat} (h : i < l.length) (d : α) :
    l.getD i d ∈ l := by
  induction l generalizing i with
  | nil => simp at h
  | cons a as ih =>
      cases i with
      | zero => simp
      | succ j =>
          simp only [List.getD_cons_succ]
          exact List.mem_cons_of_mem _ (ih (Nat.lt_of_succ_lt_succ h))

/-- Membership through getD. -/
theorem mem_iff_getD {α : Type} {l : List α} {t : α} (d : α) :
    t ∈ l ↔ ∃ j, j < l.length ∧ l.getD j d = t := by
  induction l with
  | nil => simp
  | cons a as ih =>
      simp only [List.mem_cons, ih]
      constructor
      · rintro (rfl | ⟨j, hj, rfl⟩)
        · exact ⟨0, Nat.succ_pos _, rfl⟩
        · exact ⟨j + 1, Nat.succ_lt_succ hj, by simp⟩
      · rintro ⟨j, hj, rfl⟩
        cases j with
        | zero => exact Or.inl rfl
        | succ j2 => exact Or.inr ⟨j2, Nat.lt_of_succ_lt_succ hj, by simp⟩

/-- Filtering a mapped list filters the originals. -/
theorem filter_map_comm {α β : Type} {f : α → β} {p : β → Bool} (l : List α) :
    (l.map f).filter p = (l.filter (fun a => p (f a))).map f := by
  induction l with
  | nil => rfl
  | cons a as ih =>
      by_cases hpa : p (f a) = true
      · simp [List.filter_cons, hpa, ih]
      · simp only [List.map_cons, List.filter_cons, hpa] at *
        simpa [hpa] using ih

/-- Filtering a duplicate-free list down to the members of another
duplicate-free list contained in it yields as many elements as that
list. -/
theorem length_filter_mem_of_nodup {l m : List Cell} (hl : l.Nodup) (hm : m.Nodup)
    (hsub : ∀ x ∈ m, x ∈ l) :
    (l.filter (fun x => decide (x ∈ m))).length = m.length := by
  have hperm : List.Perm (l.filter (fun x => decide (x ∈ m))) m := by
    rw [List.perm_ext_iff_of_nodup (hl.filter _) hm]
    intro a
    simp only [List.mem_filter, decide_eq_true_eq]
    exact ⟨fun h => h.2, fun h => ⟨hsub a h, h⟩⟩
  exact hperm.length_eq

/-- A list with two distinct members has more than one distinct value. -/
theorem one_lt_dedup_length_iff {α : Type} [DecidableEq α] (l : List α) :
    1 < l.dedup.length ↔ ∃ a ∈ l, ∃ b ∈ l, a ≠ b := by
  constructor
  · intro h
    cases hd : l.dedup with
    | nil => rw [hd] at h; simp at h
    | cons x rest =>
        cases hrest : rest with
        | nil => rw [hd, hrest] at h; simp at h
        | cons y rest2 =>
            subst hrest
            have hx : x ∈ l.dedup := by rw [hd]; simp
            have hy : y ∈ l.dedup := by rw [hd]; simp
            have hnd := l.nodup_dedup
            rw [hd] at hnd
            have hxy : x ≠ y := by
              rcases List.nodup_cons.mp hnd with ⟨hx1, _⟩
              intro hq
              exact hx1 (by rw [hq]; simp)
            exact ⟨x, List.mem_dedup.mp hx, y, List.mem_dedup.mp hy, hxy⟩
  · rintro ⟨a, ha, b, hb, hab⟩
    by_contra hle
    push_neg at hle
    have ha2 : a ∈ l.dedup := List.mem_dedup.mpr ha
    have hb2 : b ∈ l.dedup := List.mem_dedup.mpr hb
    cases hd : l.dedup with
    | nil => rw [hd] at ha2; simp at ha2
    | cons x rest =>
        cases hrest : rest with
        | nil =>
            subst hrest
            rw [hd] at ha2 hb2
            simp at ha2 hb2
            exact hab (ha2.trans hb2.symm)
        | cons y rest2 =>
            subst hrest
            rw [hd] at hle
            simp at hle

/-! ## Duplicate Resolver lemmas (claims C6 and C10) -/

/-- Keep-first de-duplication leaves a list untouched when its keys are
already distinct and disjoint from the seen set. -/
theorem keepFirstAux_eq_self {hdr : List String} {pk : String} {rs : List (List Cell)}
    {seen : List Cell} (hnd : (rs.map (fun r => cellAt hdr r pk)).Nodup)
    (hdisj : ∀ r ∈ rs, cellAt hdr r pk ∉ seen) :
    keepFirstAux hdr pk seen rs = rs := by
  induction rs generalizing seen with
  | nil => rfl
  | cons r rs ih =>
      simp only [List.map_cons, List.nodup_cons] at hnd
      have hk : cellAt hdr r pk ∉ seen := hdisj r (by simp)
      unfold keepFirstAux
      rw [if_neg hk]
      congr 1
      apply ih hnd.2
      intro r2 hr2
      simp only [List.mem_cons]
      rintro (heq | hs)
      · exact hnd.1 (by rw [← heq]; exact List.mem_map_of_mem _ hr2)
      · exact hdisj r2 (List.mem_cons_of_mem _ hr2) hs

/-- Keys of the keep-first de-duplication are distinct and avoid the
seen set. -/
theorem keepFirstAux_keys_nodup (hdr : List String) (pk : String) (rs : List (List Cell))
    (seen : List Cell) :
    ((keepFirstAux hdr pk seen rs).map (fun r => cellAt hdr r pk)).Nodup ∧
    ∀ r ∈ keepFirstAux hdr pk seen rs, cellAt hdr r pk ∉ seen := by
  induction rs generalizing seen with
  | nil => simp [keepFirstAux]
  | cons r rs ih =>
      by_cases hk : cellAt hdr r pk ∈ seen
      · unfold keepFirstAux
        rw [if_pos hk]
        exact ih seen
      · have ih2 := ih (cellAt hdr r pk :: seen)
        unfold keepFirstAux
        rw [if_neg hk]
        refine ⟨?_, ?_⟩
        · simp only [List.map_cons, List.nodup_cons]
          refine ⟨?_, ih2.1⟩
          intro hmem
          obtain ⟨r2, hr2, heq⟩ := List.mem_map.mp hmem
          exact ih2.2 r2 hr2 (by rw [heq]; exact List.mem_cons_self _ _)
        · intro r2 hr2
          rcases List.mem_cons.mp hr2 with rfl | hr2b
          · exact hk
          · intro hs
            exact ih2.2 r2 hr2b (List.mem_cons_of_mem _ hs)

/-- C6 (amended): for a nonempty identifier column name present in a
table, the Duplicate Resolver keeps, per distinct identifier value,
exactly the first row in original order, and each output table has as
many distinct identifier values as rows.  The source guards the
de-duplication behind the Python truthiness test of the name, so the
amendment excludes the empty-string column name, which disables the
resolver (see the counterexample). -/
theorem remove_duplicates_keeps_first (tables : List Table) (pk : String)
    (hne : pk ≠ "") (hmem : ∀ t ∈ tables, pk ∈ t.header) :
    remove_duplicates tables pk
      = tables.map (fun t => ⟨t.header, keepFirstAux t.header pk [] t.rows⟩) ∧
    ∀ t ∈ remove_duplicates tables pk, (keyList t pk).dedup.length = t.rows.length := by
  have hbody : ∀ t : Table, t ∈ tables →
      (if pk ≠ "" ∧ pk ∈ t.header then
        if (keyList t pk).Nodup then t
        else ({ header := t.header, rows := keepFirstAux t.header pk [] t.rows } : Table)
      else t) = (⟨t.header, keepFirstAux t.header pk [] t.rows⟩ : Table) := by
    intro t ht
    rw [if_pos ⟨hne, hmem t ht⟩]
    by_cases hnd : (keyList t pk).Nodup
    · rw [if_pos hnd]
      have : keepFirstAux t.header pk [] t.rows = t.rows :=
        keepFirstAux_eq_self hnd (by intro r hr; simp)
      rw [this]
    · rw [if_neg hnd]
  have hmap : remove_duplicates tables pk
      = tables.map (fun t => ⟨t.header, keepFirstAux t.header pk [] t.rows⟩) := by
    unfold remove_duplicates
    exact List.map_congr_left hbody
  refine ⟨hmap, ?_⟩
  intro t ht
  rw [hmap] at ht
  obtain ⟨u, hu, rfl⟩ := List.mem_map.mp ht
  have hnd := (keepFirstAux_keys_nodup u.header pk u.rows []).1
  have hkeys : keyList ⟨u.header, keepFirstAux u.header pk [] u.rows⟩ pk
      = (keepFirstAux u.header pk [] u.rows).map (fun r => cellAt u.header r pk) := rfl
  rw [hkeys, List.dedup_eq_self.mpr hnd, List.length_map]

/-- C6 witness: a table with a duplicated identifier 1 collapses to the
first rows per identifier, matching the keep-first description and the
distinct-count equation. -/
theorem remove_duplicates_keeps_first_witness :
    remove_duplicates ([⟨["id"], [[some (Val.intV 1)], [some (Val.intV 1)], [some (Val.intV 2)]]⟩] : List Table) "id"
      = ([⟨["id"], [[some (Val.intV 1)], [some (Val.intV 1)], [some (Val.intV 2)]]⟩] : List Table).map
          (fun t => ⟨t.header, keepFirstAux t.header "id" [] t.rows⟩) ∧
    ∀ t ∈ remove_duplicates
        ([⟨["id"], [[some (Val.intV 1)], [some (Val.intV 1)], [some (Val.intV 2)]]⟩] : List Table) "id",
      (keyList t "id").dedup.length = t.rows.length :=
  remove_duplicates_keeps_first _ "id" (by decide) (by decide)

/-- C6 counterexample: for the empty-string identifier column name,
which Python treats as falsy, remove_duplicates keeps both rows bearing
the identifier value 1, although the table contains that column, so the
first-occurrence policy is not applied and the distinct count 1 differs
from the row count 2. -/
theorem c6_counterexample :
    remove_duplicates [⟨[""], [[some (Val.intV 1)], [some (Val.intV 1)]]⟩] ""
      = [⟨[""], [[some (Val.intV 1)], [some (Val.intV 1)]]⟩] ∧
    "" ∈ (⟨[""], [[some (Val.intV 1)], [some (Val.intV 1)]]⟩ : Table).header ∧
    (keyList ⟨[""], [[some (Val.intV 1)], [some (Val.intV 1)]]⟩ "").dedup.length = 1 ∧
    (⟨[""], [[some (Val.intV 1)], [some (Val.intV 1)]]⟩ : Table).rows.length = 2 := by
  decide

/-- C10: the Duplicate Resolver is total and order preserving: the
output has one table per input table in the same positions, and a table
lacking the identifier column, or free of duplicate identifier values,
passes through unchanged. -/
theorem remove_duplicates_total_frame (tables : List Table) (pk : String) :
    (remove_duplicates tables pk).length = tables.length ∧
    ∀ i : Nat, i < tables.length →
      (pk ∉ (tables.getD i default).header ∨ (keyList (tables.getD i default) pk).Nodup) →
      (remove_duplicates tables pk).getD i default = tables.getD i default := by
  constructor
  · simp [remove_duplicates]
  · intro i hi hcase
    unfold remove_duplicates
    rw [getD_map_of_lt hi default]
    rcases hcase with hnm | hnd
    · rw [if_neg (fun hx => hnm hx.2)]
    · by_cases hc : pk ≠ "" ∧ pk ∈ (tables.getD i default).header
      · rw [if_pos hc, if_pos hnd]
      · rw [if_neg hc]

/-- C10 witness: a table lacking the identifier column id passes
through unchanged, and the output length matches. -/
theorem remove_duplicates_total_frame_witness :
    (remove_duplicates [⟨["a"], [[some (Val.intV 1)], [some (Val.intV 1)]]⟩] "id").length = 1 ∧
    (remove_duplicates [⟨["a"], [[some (Val.intV 1)], [some (Val.intV 1)]]⟩] "id").getD 0 default
      = ⟨["a"], [[some (Val.intV 1)], [some (Val.intV 1)]]⟩ := by
  have h := remove_duplicates_total_frame
    [⟨["a"], [[some (Val.intV 1)], [some (Val.intV 1)]]⟩] "id"
  refine ⟨by simpa using h.1, ?_⟩
  have h2 := h.2 0 (by decide) (Or.inl (by decide))
  simpa using h2

/-! ## Validator lemmas (claims C7 and C8) -/

/-- Characterization of the missing-index list: it holds n + j exactly
when the table at offset j lacks the column. -/
theorem missingIdxFrom_mem (pk : String) (ts : List Table) (n i : Nat) :
    i ∈ missingIdxFrom pk n ts
      ↔ ∃ j, j < ts.length ∧ i = n + j ∧ pk ∉ (ts.getD j default).header := by
  induction ts generalizing n with
  | nil => simp [missingIdxFrom]
  | cons t ts ih =>
      simp only [missingIdxFrom, List.mem_append]
      by_cases hm : pk ∈ t.header
      · rw [if_pos hm]
        simp only [List.not_mem_nil, false_or]
        rw [ih (n + 1)]
        constructor
        · rintro ⟨j, hj, rfl, hh⟩
          exact ⟨j + 1, Nat.succ_lt_succ hj, by omega, by simpa using hh⟩
        · rintro ⟨j, hj, rfl, hh⟩
          cases j with
          | zero => exact absurd hm (by simpa using hh)
          | succ j2 =>
              exact ⟨j2, Nat.lt_of_succ_lt_succ hj, by omega, by simpa using hh⟩
      · rw [if_neg hm]
        simp only [List.mem_singleton]
        rw [ih (n + 1)]
        constructor
        · rintro (rfl | ⟨j, hj, rfl, hh⟩)
          · exact ⟨0, Nat.succ_pos _, by omega, by simpa using hm⟩
          · exact ⟨j + 1, Nat.succ_lt_succ hj, by omega, by simpa using hh⟩
        · rintro ⟨j, hj, hij, hh⟩
          cases j with
          | zero => exact Or.inl (by omega)
          | succ j2 =>
              exact Or.inr ⟨j2, Nat.lt_of_succ_lt_succ hj, by omega, by simpa using hh⟩

/-- The missing-index list is empty exactly when every table contains
the column. -/
theorem missingIdxFrom_eq_nil (pk : String) (ts : List Table) (n : Nat) :
    missingIdxFrom pk n ts = [] ↔ ∀ t ∈ ts, pk ∈ t.header := by
  rw [List.eq_nil_iff_forall_not_mem]
  constructor
  · intro h t ht
    by_contra hq
    obtain ⟨j, hj, hg⟩ := (mem_iff_getD (t := t) default).mp ht
    exact h (n + j) ((missingIdxFrom_mem pk ts n (n + j)).mpr ⟨j, hj, rfl, by rw [hg]; exact hq⟩)
  · intro h i hi
    obtain ⟨j, hj, _, hh⟩ := (missingIdxFrom_mem pk ts n i).mp hi
    exact hh (h _ (getD_mem_of_lt hj default))

/-- C7: when some table lacks the identifier column, validation fails
with MissingIdentifier carrying exactly the one-based indices of the
tables lacking the column, and the ok outcome that performs duplicate
resolution and a merge is never produced. -/
theorem validator_missing_identifier (tables : List Table) (pk : String)
    (h : ∃ t ∈ tables, pk ∉ t.header) :
    validateAndPrepare tables pk = .missingIdentifier (missingIdxFrom pk 1 tables) ∧
    (∀ i : Nat, i ∈ missingIdxFrom pk 1 tables
        ↔ ∃ j, j < tables.length ∧ i = 1 + j ∧ pk ∉ (tables.getD j default).header) ∧
    ∀ ts : List Table, validateAndPrepare tables pk ≠ .ok ts := by
  have hne : missingIdxFrom pk 1 tables ≠ [] := by
    rw [Ne, missingIdxFrom_eq_nil]
    push_neg
    obtain ⟨t, ht, hq⟩ := h
    exact ⟨t, ht, hq⟩
  have h1 : validateAndPrepare tables pk = .missingIdentifier (missingIdxFrom pk 1 tables) := by
    unfold validateAndPrepare
    rw [if_pos hne]
  refine ⟨h1, fun i => missingIdxFrom_mem pk tables 1 i, ?_⟩
  intro ts hts
  rw [h1] at hts
  exact ValidationOutcome.noConfusion hts

/-- C7 witness: with the key id absent from the second table only,
validation reports MissingIdentifier and its list holds index 2. -/
theorem validator_missing_identifier_witness :
    validateAndPrepare ([⟨["id"], []⟩, ⟨["a"], []⟩] : List Table) "id"
      = .missingIdentifier (missingIdxFrom "id" 1 ([⟨["id"], []⟩, ⟨["a"], []⟩] : List Table)) ∧
    (2 : Nat) ∈ missingIdxFrom "id" 1 ([⟨["id"], []⟩, ⟨["a"], []⟩] : List Table) := by
  have h := validator_missing_identifier ([⟨["id"], []⟩, ⟨["a"], []⟩] : List Table) "id"
    ⟨⟨["a"], []⟩, by decide, by decide⟩
  exact ⟨h.1, (h.2.1 2).mpr ⟨1, by decide, by decide, by decide⟩⟩

/-- C8 (amended): with the identifier present in every table, the
validation fails with the InconsistentIdentifierType outcome exactly
when two tables infer different pandas dtypes for the identifier
column.  The dtype comparison is coarser than the numeric, text, mixed
classes on object columns (text and mixed are both object, hence
accepted together, see the counterexample) and finer on numeric ones
(an int64 column and a float64 column are both numeric yet rejected). -/
theorem validator_type_check_dtype (tables : List Table) (pk : String)
    (hmem : ∀ t ∈ tables, pk ∈ t.header) :
    validateAndPrepare tables pk = .inconsistentType
      ↔ ∃ t ∈ tables, ∃ u ∈ tables, dtypeOf (keyList t pk) ≠ dtypeOf (keyList u pk) := by
  have hnil : missingIdxFrom pk 1 tables = [] := (missingIdxFrom_eq_nil pk tables 1).mpr hmem
  have hiff : ((tables.map (fun t => dtypeOf (keyList t pk))).dedup.length > 1)
      ↔ ∃ t ∈ tables, ∃ u ∈ tables, dtypeOf (keyList t pk) ≠ dtypeOf (keyList u pk) := by
    rw [gt_iff_lt, one_lt_dedup_length_iff]
    constructor
    · rintro ⟨a, ha, b, hb, hab⟩
      obtain ⟨t, ht, rfl⟩ := List.mem_map.mp ha
      obtain ⟨u, hu, rfl⟩ := List.mem_map.mp hb
      exact ⟨t, ht, u, hu, hab⟩
    · rintro ⟨t, ht, u, hu, htu⟩
      exact ⟨_, List.mem_map_of_mem _ ht, _, List.mem_map_of_mem _ hu, htu⟩
  unfold validateAndPrepare
  rw [if_neg (by simp [hnil])]
  by_cases hgt : ((tables.map (fun t => dtypeOf (keyList t pk))).dedup.length > 1)
  · rw [if_pos hgt]
    exact iff_of_true rfl (hiff.mp hgt)
  · rw [if_neg hgt]
    exact iff_of_false (fun hq => ValidationOutcome.noConfusion hq) (fun hex => hgt (hiff.mpr hex))

/-- C8 witness: an int64 key column next to an object key column is
rejected as inconsistent. -/
theorem validator_type_check_dtype_witness :
    validateAndPrepare
      ([⟨["id"], [[some (Val.intV 1)]]⟩, ⟨["id"], [[some (Val.strV "a")]]⟩] : List Table) "id"
      = .inconsistentType :=
  (validator_type_check_dtype
      ([⟨["id"], [[some (Val.intV 1)]]⟩, ⟨["id"], [[some (Val.strV "a")]]⟩] : List Table) "id"
      (by decide)).mpr
    ⟨⟨["id"], [[some (Val.intV 1)]]⟩, by decide,
      ⟨["id"], [[some (Val.strV "a")]]⟩, by decide, by decide⟩

/-- C8 counterexample: a text key column and a mixed key column carry
different classes in the numeric, text, mixed classification of the
specification, yet both infer the pandas object dtype, so the check
accepts them and validation proceeds to the ok outcome instead of
failing with InconsistentIdentifierType. -/
theorem c8_counterexample :
    validateAndPrepare
      ([⟨["id"], [[some (Val.strV "a")]]⟩,
        ⟨["id"], [[some (Val.intV 1)], [some (Val.strV "b")]]⟩] : List Table) "id"
      = .ok ([⟨["id"], [[some (Val.strV "a")]]⟩,
        ⟨["id"], [[some (Val.intV 1)], [some (Val.strV "b")]]⟩] : List Table) ∧
    specClassOf (keyList ⟨["id"], [[some (Val.strV "a")]]⟩ "id") = .text ∧
    specClassOf (keyList ⟨["id"], [[some (Val.intV 1)], [some (Val.strV "b")]]⟩ "id") = .mixed := by
  decide

/-! ## Positional helpers for the long merge -/

/-- Setting one position leaves the others unchanged. -/
theorem getD_set_ne {α : Type} {l : List α} {i j : Nat} (h : i ≠ j) (v : α) (d : α) :
    (l.set j v).getD i d = l.getD i d := by
  induction l generalizing i j with
  | nil => simp
  | cons a as ih =>
      cases j with
      | zero =>
          cases i with
          | zero => exact absurd rfl h
          | succ i2 => simp [List.set]
      | succ j2 =>
          cases i with
          | zero => simp [List.set]
          | succ i2 =>
              simp only [List.set, List.getD_cons_succ]
              have h2 : i2 ≠ j2 := fun hq => h (by rw [hq])
              exact ih h2

/-- getD on an append, inside the left part. -/
theorem getD_append_left {α : Type} {l1 l2 : List α} {i : Nat} (h : i < l1.length) (d : α) :
    (l1 ++ l2).getD i d = l1.getD i d := by
  induction l1 generalizing i with
  | nil => simp at h
  | cons a as ih =>
      cases i with
      | zero => simp
      | succ j =>
          simp only [List.cons_append, List.getD_cons_succ]
          exact ih (Nat.lt_of_succ_lt_succ h)

/-- getD on an append, at the first position of the right part. -/
theorem getD_append_len {α : Type} (l1 l2 : List α) (d : α) :
    (l1 ++ l2).getD l1.length d = l2.getD 0 d := by
  induction l1 with
  | nil => simp
  | cons a as ih => simpa using ih

/-- idxOf? on an append finds a member of the left part there. -/
theorem idxOf?_append_of_mem {c : String} {l1 : List String} (l2 : List String) (h : c ∈ l1) :
    idxOf? c (l1 ++ l2) = idxOf? c l1 := by
  induction l1 with
  | nil => simp at h
  | cons d ds ih =>
      by_cases hd : d = c
      · simp [idxOf?, hd]
      · rcases List.mem_cons.mp h with rfl | hm
        · exact absurd rfl hd
        · simp only [List.cons_append, idxOf?, if_neg hd, List.append_eq]
          rw [ih hm]

/-- idxOf? on an append skips an absent left part. -/
theorem idxOf?_append_of_not_mem {c : String} {l1 : List String} (l2 : List String)
    (h : c ∉ l1) :
    idxOf? c (l1 ++ l2) = (idxOf? c l2).map (· + l1.length) := by
  induction l1 with
  | nil => simp
  | cons d ds ih =>
      have hd : d ≠ c := fun hq => h (by rw [hq]; exact List.mem_cons_self _ _)
      have hm : c ∉ ds := fun hq => h (List.mem_cons_of_mem _ hq)
      simp only [List.cons_append, idxOf?, if_neg hd, List.append_eq, ih hm, Option.map_map]
      cases idxOf? c l2 with
      | none => rfl
      | some k =>
          simp only [Option.map_some', Function.comp]
          congr 1

/-- Filtering distributes over image concatenation. -/
theorem filter_cmap {α β : Type} (f : α → List β) (p : β → Bool) (l : List α) :
    (cmap f l).filter p = cmap (fun a => (f a).filter p) l := by
  induction l with
  | nil => rfl
  | cons a as ih => simp [cmap, List.filter_append, ih]

/-- Length of an image concatenation. -/
theorem length_cmap {α β : Type} (f : α → List β) (l : List α) :
    (cmap f l).length = (l.map (fun a => (f a).length)).sum := by
  induction l with
  | nil => rfl
  | cons a as ih => simp [cmap, ih]

/-- Image concatenation over a mapped list composes. -/
theorem cmap_map {α β γ : Type} (f : β → List γ) (g : α → β) (l : List α) :
    cmap f (l.map g) = cmap (fun a => f (g a)) l := by
  induction l with
  | nil => rfl
  | cons a as ih => simp [cmap, ih]

/-- Sum of a constant map. -/
theorem sum_map_const {α : Type} (l : List α) (k : Nat) :
    (l.map (fun _ => k)).sum = l.length * k := by
  induction l with
  | nil => simp
  | cons a as ih =>
      simp only [List.map_cons, List.sum_cons, ih, List.length_cons]
      ring

/-! ## setWave and commonIds lemmas (claims C1, C5 and C9) -/

/-- setWave on a table without a Wave column appends the column. -/
theorem setWave_of_not_mem {t : Table} {w : Nat} (h : "Wave" ∉ t.header) :
    setWave t w
      = ⟨t.header ++ ["Wave"], t.rows.map (fun r => r ++ [some (Val.strV (waveLabel w))])⟩ := by
  unfold setWave
  rw [idxOf?_eq_none_iff.mpr h]

/-- setWave keeps every present column name. -/
theorem mem_setWave_header {t : Table} {w : Nat} {pk : String} (h : pk ∈ t.header) :
    pk ∈ (setWave t w).header := by
  unfold setWave
  cases hw : idxOf? "Wave" t.header with
  | some j => simpa using h
  | none => simp [h]

/-- Writing the wave label does not disturb a key column other than
Wave, on a rectangular table. -/
theorem keyList_setWave {t : Table} {w : Nat} {pk : String} (hpk : pk ≠ "Wave")
    (hwf : t.WF) : keyList (setWave t w) pk = keyList t pk := by
  unfold setWave
  cases hw : idxOf? "Wave" t.header with
  | some j =>
      obtain ⟨hjlt, hjval⟩ := idxOf?_some hw
      unfold keyList
      simp only [List.map_map]
      apply List.map_congr_left
      intro r hr
      simp only [Function.comp]
      unfold cellAt
      cases hi : idxOf? pk t.header with
      | none => rfl
      | some i =>
          obtain ⟨hilt, hival⟩ := idxOf?_some hi
          have hij : i ≠ j := by
            intro hq
            have : pk = "Wave" := by rw [← hival, hq, hjval]
            exact hpk this
          exact getD_set_ne hij _ none
  | none =>
      unfold keyList
      simp only [List.map_map]
      apply List.map_congr_left
      intro r hr
      simp only [Function.comp]
      unfold cellAt
      by_cases hmem : pk ∈ t.header
      · rw [idxOf?_append_of_mem _ hmem]
        cases hi : idxOf? pk t.header with
        | none => rfl
        | some i =>
            obtain ⟨hilt, _⟩ := idxOf?_some hi
            exact getD_append_left (by rw [hwf r hr]; exact hilt) none
      · rw [idxOf?_append_of_not_mem _ hmem, idxOf?_eq_none_iff.mpr hmem]
        have hnw : idxOf? pk ["Wave"] = none := by
          rw [idxOf?_eq_none_iff]
          simp only [List.mem_singleton]
          exact hpk
        rw [hnw]
        rfl

/-- Membership in the filter fold defining the common keys. -/
theorem mem_foldl_filter (pk : String) (ts : List Table) (init : List Cell) (k : Cell) :
    k ∈ ts.foldl (fun acc u => acc.filter (fun k2 => decide (k2 ∈ keyList u pk))) init
      ↔ k ∈ init ∧ ∀ u ∈ ts, k ∈ keyList u pk := by
  induction ts generalizing init with
  | nil => simp
  | cons t ts ih =>
      simp only [List.foldl_cons]
      rw [ih]
      simp only [List.mem_filter, decide_eq_true_eq, List.mem_cons]
      constructor
      · rintro ⟨⟨h1, h2⟩, h3⟩
        refine ⟨h1, ?_⟩
        rintro u (rfl | hu2)
        · exact h2
        · exact h3 u hu2
      · rintro ⟨h1, h2⟩
        exact ⟨⟨h1, h2 t (Or.inl rfl)⟩, fun u hu => h2 u (Or.inr hu)⟩

/-- The filter fold keeps lists duplicate free. -/
theorem nodup_foldl_filter (pk : String) (ts : List Table) (init : List Cell)
    (h : init.Nodup) :
    (ts.foldl (fun acc u => acc.filter (fun k2 => decide (k2 ∈ keyList u pk))) init).Nodup := by
  induction ts generalizing init with
  | nil => simpa
  | cons t ts ih => exact ih _ (h.filter _)

/-- The common-key list is duplicate free. -/
theorem commonIds_nodup (ts : List Table) (pk : String) : (commonIds ts pk).Nodup := by
  cases ts with
  | nil => simp [commonIds]
  | cons t ts => exact nodup_foldl_filter pk ts _ (List.nodup_dedup _)

/-- Membership in the common-key list, for at least one table. -/
theorem mem_commonIds {ts : List Table} (hne : ts ≠ []) (pk : String) (k : Cell) :
    k ∈ commonIds ts pk ↔ ∀ u ∈ ts, k ∈ keyList u pk := by
  cases ts with
  | nil => exact absurd rfl hne
  | cons t ts =>
      simp only [commonIds]
      rw [mem_foldl_filter]
      simp only [List.mem_dedup]
      constructor
      · rintro ⟨h1, h2⟩ u hu
        rcases List.mem_cons.mp hu with rfl | hu2
        · exact h1
        · exact h2 u hu2
      · intro h
        exact ⟨h t (List.mem_cons_self _ _), fun u hu => h u (List.mem_cons_of_mem _ hu)⟩

/-- Congruence of the filter fold under equal key columns. -/
theorem foldl_filter_congr (pk : String) :
    ∀ (ts us : List Table) (init : List Cell),
      ts.map (fun t => keyList t pk) = us.map (fun t => keyList t pk) →
      ts.foldl (fun acc u => acc.filter (fun k2 => decide (k2 ∈ keyList u pk))) init
        = us.foldl (fun acc u => acc.filter (fun k2 => decide (k2 ∈ keyList u pk))) init := by
  intro ts
  induction ts with
  | nil =>
      intro us init h
      cases us with
      | nil => rfl
      | cons u us => simp at h
  | cons t ts ih =>
      intro us init h
      cases us with
      | nil => simp at h
      | cons u us =>
          simp only [List.map_cons, List.cons.injEq] at h
          simp only [List.foldl_cons]
          rw [h.1]
          exact ih us _ h.2

/-- Congruence of the common keys under equal key columns. -/
theorem commonIds_congr {ts us : List Table} (pk : String)
    (h : ts.map (fun t => keyList t pk) = us.map (fun t => keyList t pk)) :
    commonIds ts pk = commonIds us pk := by
  cases ts with
  | nil =>
      cases us with
      | nil => rfl
      | cons u us => simp at h
  | cons t ts =>
      cases us with
      | nil => simp at h
      | cons u us =>
          simp only [List.map_cons, List.cons.injEq] at h
          simp only [commonIds]
          rw [h.1]
          exact foldl_filter_congr pk ts us _ h.2

/-- The tagged tables carry the key columns of the originals, when the
key is not the Wave column and the tables are rectangular. -/
theorem tagged_keyLists (pk : String) (hpk : pk ≠ "Wave") :
    ∀ (tables : List Table) (waves : List Nat), waves.length = tables.length →
      (∀ t ∈ tables, t.WF) →
      ((tables.zip waves).map (fun p => setWave p.1 p.2)).map (fun t => keyList t pk)
        = tables.map (fun t => keyList t pk) := by
  intro tables
  induction tables with
  | nil => intro waves _ _; simp
  | cons t ts ih =>
      intro waves hlen hw
      cases waves with
      | nil => simp at hlen
      | cons w ws =>
          simp only [List.zip_cons_cons, List.map_cons]
          rw [keyList_setWave hpk (hw t (List.mem_cons_self _ _))]
          rw [ih ws (by simpa using hlen) (fun u hu => hw u (List.mem_cons_of_mem _ hu))]

/-- Membership in the intersection fold of key sets. -/
theorem mem_foldl_inter (pk : String) (ts : List Table) (init : Finset Cell) (k : Cell) :
    k ∈ ts.foldl (fun s u => s ∩ keyFinset u pk) init
      ↔ k ∈ init ∧ ∀ u ∈ ts, k ∈ keyList u pk := by
  induction ts generalizing init with
  | nil => simp
  | cons t ts ih =>
      simp only [List.foldl_cons]
      rw [ih]
      simp only [Finset.mem_inter, keyFinset, List.mem_toFinset]
      constructor
      · rintro ⟨⟨h1, h2⟩, h3⟩
        refine ⟨h1, ?_⟩
        rintro u hu
        rcases List.mem_cons.mp hu with rfl | hu2
        · exact h2
        · exact h3 u hu2
      · rintro ⟨h1, h2⟩
        exact ⟨⟨h1, h2 t (List.mem_cons_self _ _)⟩, fun u hu => h2 u (List.mem_cons_of_mem _ hu)⟩

/-- Membership in the key-set intersection, for at least one table. -/
theorem mem_interKeys {ts : List Table} (hne : ts ≠ []) (pk : String) (k : Cell) :
    k ∈ interKeys ts pk ↔ ∀ u ∈ ts, k ∈ keyList u pk := by
  cases ts with
  | nil => exact absurd rfl hne
  | cons t ts =>
      simp only [interKeys]
      rw [mem_foldl_inter]
      simp only [keyFinset, List.mem_toFinset]
      constructor
      · rintro ⟨h1, h2⟩ u hu
        rcases List.mem_cons.mp hu with rfl | hu2
        · exact h1
        · exact h2 u hu2
      · intro h
        exact ⟨h t (List.mem_cons_self _ _), fun u hu => h u (List.mem_cons_of_mem _ hu)⟩

/-- The length of the common-key list is the cardinality of the
intersection of the key sets. -/
theorem commonIds_length_eq_card {ts : List Table} (hne : ts ≠ []) (pk : String) :
    (commonIds ts pk).length = (interKeys ts pk).card := by
  have h1 : (commonIds ts pk).toFinset = interKeys ts pk := by
    apply Finset.ext
    intro k
    rw [List.mem_toFinset, mem_commonIds hne, mem_interKeys hne]
  rw [← h1, List.toFinset_card_of_nodup (commonIds_nodup ts pk)]

/-- Reading the key of an aligned row gives the key in the source
table, when the target header holds the key column. -/
theorem cellAt_alignRow {hdr : List String} {t : Table} {r : List Cell} {pk : String}
    (h : pk ∈ hdr) : cellAt hdr (alignRow hdr t r) pk = cellAt t.header r pk :=
  cellAt_map_header h

/-- Membership in the union-header fold. -/
theorem mem_unionHeader_aux (c : String) :
    ∀ (ts : List Table) (acc : List String),
      c ∈ ts.foldl (fun a t => a ++ t.header.filter (fun d => decide (d ∉ a))) acc
        ↔ c ∈ acc ∨ ∃ t ∈ ts, c ∈ t.header := by
  intro ts
  induction ts with
  | nil => intro acc; simp
  | cons t ts ih =>
      intro acc
      simp only [List.foldl_cons]
      rw [ih]
      simp only [List.mem_append, List.mem_filter, decide_eq_true_eq]
      constructor
      · rintro ((h1 | ⟨h2, _⟩) | ⟨u, hu, hc⟩)
        · exact Or.inl h1
        · exact Or.inr ⟨t, List.mem_cons_self _ _, h2⟩
        · exact Or.inr ⟨u, List.mem_cons_of_mem _ hu, hc⟩
      · rintro (h1 | ⟨u, hu, hc⟩)
        · exact Or.inl (Or.inl h1)
        · rcases List.mem_cons.mp hu with rfl | hu2
          · by_cases hacc : c ∈ acc
            · exact Or.inl (Or.inl hacc)
            · exact Or.inl (Or.inr ⟨hc, hacc⟩)
          · exact Or.inr ⟨u, hu2, hc⟩

/-- A name lies in the union header exactly when some table carries it. -/
theorem mem_unionHeader {ts : List Table} {c : String} :
    c ∈ unionHeader ts ↔ ∃ t ∈ ts, c ∈ t.header := by
  unfold unionHeader
  rw [mem_unionHeader_aux]
  simp

/-- The union header is duplicate free when every header is. -/
theorem unionHeader_nodup {ts : List Table} (h : ∀ t ∈ ts, t.header.Nodup) :
    (unionHeader ts).Nodup := by
  unfold unionHeader
  suffices haux : ∀ (us : List Table) (acc : List String), (∀ t ∈ us, t.header.Nodup) →
      acc.Nodup →
      (us.foldl (fun a t => a ++ t.header.filter (fun d => decide (d ∉ a))) acc).Nodup by
    exact haux ts [] h List.nodup_nil
  intro us
  induction us with
  | nil => intro acc _ hacc; simpa
  | cons t ts2 ih =>
      intro acc hh hacc
      simp only [List.foldl_cons]
      apply ih _ (fun u hu => hh u (List.mem_cons_of_mem _ hu))
      apply List.Nodup.append hacc ((hh t (List.mem_cons_self _ _)).filter _)
      intro a ha haf
      have : a ∉ acc := by simpa using (List.mem_filter.mp haf).2
      exact this ha

/-- Core count of the long merge: with a key other than Wave, present
everywhere, on rectangular tables free of duplicate keys, the merged
row count is the common-key count times the number of tables, and the
returned count is the common-key count of the original tables. -/
theorem long_merge_count_core (tables : List Table) (pk : String) (waves : List Nat)
    (hne : tables ≠ []) (hlen : waves.length = tables.length) (hpk : pk ≠ "Wave")
    (hmem : ∀ t ∈ tables, pk ∈ t.header) (hwf : ∀ t ∈ tables, t.WF)
    (hnd : ∀ t ∈ tables, (keyList t pk).Nodup) :
    (merge_datasets_long tables pk waves).merged.rows.length
      = (commonIds tables pk).length * tables.length ∧
    (merge_datasets_long tables pk waves).commonCount = (commonIds tables pk).length := by
  have htk := tagged_keyLists pk hpk tables waves hlen hwf
  have hcommon : commonIds ((tables.zip waves).map (fun p => setWave p.1 p.2)) pk
      = commonIds tables pk := commonIds_congr pk htk
  have hzlen : (tables.zip waves).length = tables.length := by
    rw [List.length_zip, hlen, Nat.min_self]
  have hpkhdr : pk ∈ unionHeader ((tables.zip waves).map (fun p => setWave p.1 p.2)) := by
    rw [mem_unionHeader]
    cases tables with
    | nil => exact absurd rfl hne
    | cons t0 ts0 =>
        cases waves with
        | nil => simp at hlen
        | cons w0 ws0 =>
            refine ⟨setWave t0 w0, ?_, mem_setWave_header (hmem t0 (List.mem_cons_self _ _))⟩
            simp [List.zip_cons_cons]
  have hper : ∀ p ∈ tables.zip waves,
      ((setWave p.1 p.2).rows.filter
        (fun r => decide (cellAt (setWave p.1 p.2).header r pk ∈ commonIds tables pk))).length
      = (commonIds tables pk).length := by
    intro p hp
    have hp1 : p.1 ∈ tables := (List.of_mem_zip hp).1
    have hkeq : keyList (setWave p.1 p.2) pk = keyList p.1 pk :=
      keyList_setWave hpk (hwf p.1 hp1)
    have hstep : ((keyList (setWave p.1 p.2) pk).filter
          (fun k => decide (k ∈ commonIds tables pk)))
        = ((setWave p.1 p.2).rows.filter
            (fun r => decide (cellAt (setWave p.1 p.2).header r pk ∈ commonIds tables pk))).map
          (fun r => cellAt (setWave p.1 p.2).header r pk) := by
      unfold keyList
      exact filter_map_comm _
    have hlen2 : ((setWave p.1 p.2).rows.filter
        (fun r => decide (cellAt (setWave p.1 p.2).header r pk ∈ commonIds tables pk))).length
        = ((keyList (setWave p.1 p.2) pk).filter
            (fun k => decide (k ∈ commonIds tables pk))).length := by
      rw [hstep, List.length_map]
    rw [hlen2, hkeq]
    apply length_filter_mem_of_nodup (hnd p.1 hp1) (commonIds_nodup tables pk)
    intro x hx
    exact (mem_commonIds hne pk x).mp hx p.1 hp1
  constructor
  · simp only [merge_datasets_long, concatTables]
    rw [hcommon, filter_cmap, cmap_map, length_cmap]
    have hmapeq : ((tables.zip waves).map (fun p =>
        (((setWave p.1 p.2).rows.map
            (alignRow (unionHeader ((tables.zip waves).map (fun p2 => setWave p2.1 p2.2)))
              (setWave p.1 p.2))).filter
          (fun r => decide
            (cellAt (unionHeader ((tables.zip waves).map (fun p2 => setWave p2.1 p2.2))) r pk
              ∈ commonIds tables pk))).length))
        = (tables.zip waves).map (fun _ => (commonIds tables pk).length) := by
      apply List.map_congr_left
      intro p hp
      rw [filter_map_comm, List.length_map]
      have hcong := List.filter_congr (l := (setWave p.1 p.2).rows)
        (p := fun r => decide
          (cellAt (unionHeader ((tables.zip waves).map (fun p2 => setWave p2.1 p2.2)))
            (alignRow (unionHeader ((tables.zip waves).map (fun p2 => setWave p2.1 p2.2)))
              (setWave p.1 p.2) r) pk ∈ commonIds tables pk))
        (q := fun r => decide (cellAt (setWave p.1 p.2).header r pk ∈ commonIds tables pk))
        (fun r _ => by simp only [cellAt_alignRow hpkhdr])
      rw [hcong]
      exact hper p hp
    rw [hmapeq, sum_map_const, hzlen]
    exact Nat.mul_comm _ _
  · simp only [merge_datasets_long]
    rw [hcommon]

/-- C1 (amended): for a nonempty list of rectangular tables, one wave
per table, an identifier column other than Wave present in every table,
and no duplicate identifier values, the long merge emits exactly the
intersection size times the number of tables rows, and the handler
warns exactly when the actual row count differs from that product.
The amendment excludes the column name Wave, which the engine
overwrites with the wave labels before intersecting (see the
counterexample). -/
theorem long_merge_row_count (tables : List Table) (pk : String) (waves : List Nat)
    (hne : tables ≠ []) (hlen : waves.length = tables.length) (hpk : pk ≠ "Wave")
    (hmem : ∀ t ∈ tables, pk ∈ t.header) (hwf : ∀ t ∈ tables, t.WF)
    (hnd : ∀ t ∈ tables, (keyList t pk).Nodup) :
    (merge_datasets_long tables pk waves).merged.rows.length
      = (interKeys tables pk).card * tables.length ∧
    (longMergeWarns tables pk waves = true
      ↔ (merge_datasets_long tables pk waves).merged.rows.length
          ≠ (interKeys tables pk).card * tables.length) := by
  obtain ⟨h1, h2⟩ := long_merge_count_core tables pk waves hne hlen hpk hmem hwf hnd
  have hcard := commonIds_length_eq_card hne pk
  constructor
  · rw [h1, hcard]
  · unfold longMergeWarns
    simp only [decide_eq_true_eq]
    rw [h2, hcard]

/-- C1 witness: two tables sharing the identifier 2 merge into 1 times
2 rows without a warning. -/
theorem long_merge_row_count_witness :
    (merge_datasets_long
        ([⟨["id"], [[some (Val.intV 1)], [some (Val.intV 2)]]⟩,
          ⟨["id"], [[some (Val.intV 2)]]⟩] : List Table) "id" [1, 2]).merged.rows.length
      = (interKeys
          ([⟨["id"], [[some (Val.intV 1)], [some (Val.intV 2)]]⟩,
            ⟨["id"], [[some (Val.intV 2)]]⟩] : List Table) "id").card
        * ([⟨["id"], [[some (Val.intV 1)], [some (Val.intV 2)]]⟩,
            ⟨["id"], [[some (Val.intV 2)]]⟩] : List Table).length ∧
    (longMergeWarns
        ([⟨["id"], [[some (Val.intV 1)], [some (Val.intV 2)]]⟩,
          ⟨["id"], [[some (Val.intV 2)]]⟩] : List Table) "id" [1, 2] = true
      ↔ (merge_datasets_long
          ([⟨["id"], [[some (Val.intV 1)], [some (Val.intV 2)]]⟩,
            ⟨["id"], [[some (Val.intV 2)]]⟩] : List Table) "id" [1, 2]).merged.rows.length
          ≠ (interKeys
              ([⟨["id"], [[some (Val.intV 1)], [some (Val.intV 2)]]⟩,
                ⟨["id"], [[some (Val.intV 2)]]⟩] : List Table) "id").card
            * ([⟨["id"], [[some (Val.intV 1)], [some (Val.intV 2)]]⟩,
                ⟨["id"], [[some (Val.intV 2)]]⟩] : List Table).length) :=
  long_merge_row_count _ "id" [1, 2] (by decide) (by decide) (by decide)
    (by decide) (by decide) (by decide)

/-- C1 counterexample: choosing the column named Wave as the
identifier satisfies every hypothesis of the claim (the column is
present, no table has duplicate identifier values), yet the merge
returns 0 rows although the intersection of the input identifier sets
has size 1 and there are 2 tables, and no warning is raised: the
engine first overwrites the identifier column with the wave labels. -/
theorem c1_counterexample :
    (merge_datasets_long
        ([⟨["Wave"], [[some (Val.strV "a")]]⟩, ⟨["Wave"], [[some (Val.strV "a")]]⟩] : List Table)
        "Wave" [1, 2]).merged.rows.length = 0 ∧
    (interKeys
        ([⟨["Wave"], [[some (Val.strV "a")]]⟩, ⟨["Wave"], [[some (Val.strV "a")]]⟩] : List Table)
        "Wave").card
      * ([⟨["Wave"], [[some (Val.strV "a")]]⟩, ⟨["Wave"], [[some (Val.strV "a")]]⟩] : List Table).length
      = 2 ∧
    longMergeWarns
        ([⟨["Wave"], [[some (Val.strV "a")]]⟩, ⟨["Wave"], [[some (Val.strV "a")]]⟩] : List Table)
        "Wave" [1, 2] = false := by
  decide

/-- C5: the long merge mutates its inputs: the source writes the Wave
column onto the caller-supplied tables rather than onto copies, so the
post-call state of the single input table differs from the input and
carries the added Wave column. -/
theorem c5_long_merge_mutates :
    (merge_datasets_long ([⟨["id"], [[some (Val.intV 1)]]⟩] : List Table) "id" [1]).tablesAfter
      = [⟨["id", "Wave"], [[some (Val.intV 1), some (Val.strV "w1")]]⟩] ∧
    (merge_datasets_long ([⟨["id"], [[some (Val.intV 1)]]⟩] : List Table) "id" [1]).tablesAfter
      ≠ [⟨["id"], [[some (Val.intV 1)]]⟩] := by
  decide

/-! ## Long merge characterization (claim C9) -/

/-- Image concatenation respects pointwise equality. -/
theorem cmap_congr {α β : Type} {f g : α → List β} {l : List α} (h : ∀ a ∈ l, f a = g a) :
    cmap f l = cmap g l := by
  induction l with
  | nil => rfl
  | cons a as ih =>
      simp only [cmap, h a (List.mem_cons_self _ _)]
      rw [ih (fun b hb => h b (List.mem_cons_of_mem _ hb))]

/-- Every table of a zipped list appears as a first component. -/
theorem exists_zip_fst {tables : List Table} {waves : List Nat}
    (hlen : waves.length = tables.length) {t : Table} (h : t ∈ tables) :
    ∃ p ∈ tables.zip waves, p.1 = t := by
  induction tables generalizing waves with
  | nil => simp at h
  | cons t0 ts ih =>
      cases waves with
      | nil => simp at hlen
      | cons w ws =>
          rcases List.mem_cons.mp h with heq | h2
          · exact ⟨(t0, w), by simp [List.zip_cons_cons], heq.symm⟩
          · obtain ⟨p, hp, hpe⟩ := ih (by simpa using hlen) h2
            refine ⟨p, ?_, hpe⟩
            simp only [List.zip_cons_cons, List.mem_cons]
            exact Or.inr hp

/-- Reading a cell of a wave-extended row: the Wave column carries the
label, other columns read the original row. -/
theorem cellAt_wave_append {t : Table} {r : List Cell} {w : Nat} (hW : "Wave" ∉ t.header)
    (hlen : r.length = t.header.length) (c : String) :
    cellAt (t.header ++ ["Wave"]) (r ++ [some (Val.strV (waveLabel w))]) c
      = if c = "Wave" then some (Val.strV (waveLabel w)) else cellAt t.header r c := by
  by_cases hc : c = "Wave"
  · subst hc
    rw [if_pos rfl]
    unfold cellAt
    rw [idxOf?_append_of_not_mem _ hW]
    have h1 : idxOf? "Wave" ["Wave"] = some 0 := by simp [idxOf?]
    rw [h1]
    simp only [Option.map_some']
    show (r ++ [some (Val.strV (waveLabel w))]).getD (0 + t.header.length) none
      = some (Val.strV (waveLabel w))
    rw [Nat.zero_add, ← hlen, getD_append_len]
    rfl
  · rw [if_neg hc]
    unfold cellAt
    by_cases hm : c ∈ t.header
    · rw [idxOf?_append_of_mem _ hm]
      cases hi : idxOf? c t.header with
      | none => rfl
      | some i =>
          obtain ⟨hilt, _⟩ := idxOf?_some hi
          exact getD_append_left (by rw [hlen]; exact hilt) none
    · rw [idxOf?_append_of_not_mem _ hm]
      have h2 : idxOf? c ["Wave"] = none := by
        rw [idxOf?_eq_none_iff]
        simp only [List.mem_singleton]
        exact hc
      rw [h2, idxOf?_eq_none_iff.mpr hm]
      rfl

/-- Membership in the tagged union header: the original columns plus
the Wave column. -/
theorem long_tagged_mem_iff {tables : List Table} {waves : List Nat} {c : String}
    (hne : tables ≠ []) (hlen : waves.length = tables.length)
    (hW : ∀ t ∈ tables, "Wave" ∉ t.header) :
    (c ∈ unionHeader ((tables.zip waves).map (fun p => setWave p.1 p.2))
      ↔ ((∃ t ∈ tables, c ∈ t.header) ∨ c = "Wave")) := by
  rw [mem_unionHeader]
  constructor
  · rintro ⟨u, hu, hcu⟩
    obtain ⟨p, hp, rfl⟩ := List.mem_map.mp hu
    have hp1 : p.1 ∈ tables := (List.of_mem_zip hp).1
    rw [setWave_of_not_mem (hW p.1 hp1)] at hcu
    rcases List.mem_append.mp hcu with h1 | h2
    · exact Or.inl ⟨p.1, hp1, h1⟩
    · exact Or.inr (by simpa using h2)
  · rintro (⟨t, ht, hct⟩ | rfl)
    · obtain ⟨p, hp, rfl⟩ := exists_zip_fst hlen ht
      refine ⟨setWave p.1 p.2, List.mem_map_of_mem _ hp, ?_⟩
      rw [setWave_of_not_mem (hW p.1 ((List.of_mem_zip hp).1))]
      simp only [List.mem_append]
      exact Or.inl hct
    · cases tables with
      | nil => exact absurd rfl hne
      | cons t0 ts0 =>
          cases waves with
          | nil => simp at hlen
          | cons w0 ws0 =>
              refine ⟨setWave t0 w0, ?_, ?_⟩
              · simp [List.zip_cons_cons]
              · rw [setWave_of_not_mem (hW t0 (List.mem_cons_self _ _))]
                simp

/-- Tagged headers are duplicate free when the originals are and lack
the Wave column. -/
theorem tagged_headers_nodup {tables : List Table} {waves : List Nat}
    (hW : ∀ t ∈ tables, "Wave" ∉ t.header) (hhn : ∀ t ∈ tables, t.header.Nodup) :
    ∀ u ∈ (tables.zip waves).map (fun p => setWave p.1 p.2), u.header.Nodup := by
  intro u hu
  obtain ⟨p, hp, rfl⟩ := List.mem_map.mp hu
  have hp1 := (List.of_mem_zip hp).1
  rw [setWave_of_not_mem (hW p.1 hp1)]
  show (p.1.header ++ ["Wave"]).Nodup
  apply List.Nodup.append (hhn p.1 hp1) (List.nodup_singleton _)
  intro a ha hb
  have hq : a = "Wave" := by simpa using hb
  rw [hq] at ha
  exact hW p.1 hp1 ha

/-- One block of the filtered, aligned, wave-extended rows, rephrased
over the original table. -/
theorem long_tagged_block (hdr : List String) {t : Table} {w : Nat} {pk : String}
    (common : List Cell) (hWt : "Wave" ∉ t.header) (hwft : t.WF) (hpk : pk ≠ "Wave")
    (hpkhdr : pk ∈ hdr) :
    (((setWave t w).rows.map (alignRow hdr (setWave t w))).filter
        (fun r => decide (cellAt hdr r pk ∈ common)))
      = (t.rows.filter (fun r => decide (cellAt t.header r pk ∈ common))).map
          (fun r => hdr.map (fun c =>
            if c = "Wave" then some (Val.strV (waveLabel w)) else cellAt t.header r c)) := by
  rw [setWave_of_not_mem hWt]
  show ((t.rows.map (fun r => r ++ [some (Val.strV (waveLabel w))])).map
      (alignRow hdr ⟨t.header ++ ["Wave"],
        t.rows.map (fun r => r ++ [some (Val.strV (waveLabel w))])⟩)).filter
      (fun r => decide (cellAt hdr r pk ∈ common)) = _
  rw [List.map_map, filter_map_comm]
  have hpred : ∀ r ∈ t.rows,
      (decide (cellAt hdr
        ((alignRow hdr ⟨t.header ++ ["Wave"],
            t.rows.map (fun r2 => r2 ++ [some (Val.strV (waveLabel w))])⟩ ∘
          (fun r2 => r2 ++ [some (Val.strV (waveLabel w))])) r) pk ∈ common))
      = decide (cellAt t.header r pk ∈ common) := by
    intro r hr
    simp only [Function.comp]
    have h1 : cellAt hdr
        (alignRow hdr ⟨t.header ++ ["Wave"],
          t.rows.map (fun r2 => r2 ++ [some (Val.strV (waveLabel w))])⟩
          (r ++ [some (Val.strV (waveLabel w))])) pk
        = cellAt t.header r pk := by
      rw [cellAt_alignRow hpkhdr]
      show cellAt (t.header ++ ["Wave"]) (r ++ [some (Val.strV (waveLabel w))]) pk = _
      rw [cellAt_wave_append hWt (hwft r hr) pk, if_neg hpk]
    exact congrArg (fun x => decide (x ∈ common)) h1
  rw [List.filter_congr hpred]
  apply List.map_congr_left
  intro r hr
  have hrt : r ∈ t.rows := (List.mem_filter.mp hr).1
  simp only [Function.comp]
  unfold alignRow
  apply List.map_congr_left
  intro c hc
  exact cellAt_wave_append hWt (hwft r hrt) c

/-- C9 (amended): for a nonempty list of rectangular tables with
duplicate-free headers, an identifier column other than Wave present in
every table, and no input column named Wave, the long-merge output is
exactly the vertical stack, in table order then original row order, of
the rows whose identifier value is common to every input table, each
row reindexed to the merged header with null filling for absent
columns; the merged columns are the union of the source columns plus
exactly one Wave column holding the label of the source table of each
row.  The amendment excludes an identifier column named Wave (see the
counterexample). -/
theorem long_merge_characterization (tables : List Table) (pk : String) (waves : List Nat)
    (hne : tables ≠ []) (hlen : waves.length = tables.length) (hpk : pk ≠ "Wave")
    (hW : ∀ t ∈ tables, "Wave" ∉ t.header) (hmem : ∀ t ∈ tables, pk ∈ t.header)
    (hwf : ∀ t ∈ tables, t.WF) (hhn : ∀ t ∈ tables, t.header.Nodup) :
    (∀ c : String, c ∈ (merge_datasets_long tables pk waves).merged.header
        ↔ ((∃ t ∈ tables, c ∈ t.header) ∨ c = "Wave")) ∧
    (merge_datasets_long tables pk waves).merged.header.count "Wave" = 1 ∧
    (merge_datasets_long tables pk waves).merged.rows
      = cmap (fun p =>
          (p.1.rows.filter (fun r => decide (cellAt p.1.header r pk ∈ commonIds tables pk))).map
            (fun r => (merge_datasets_long tables pk waves).merged.header.map
              (fun c => if c = "Wave" then some (Val.strV (waveLabel p.2))
                else cellAt p.1.header r c)))
        (tables.zip waves) := by
  have hhdr : (merge_datasets_long tables pk waves).merged.header
      = unionHeader ((tables.zip waves).map (fun p => setWave p.1 p.2)) := by
    simp only [merge_datasets_long, concatTables]
  have htk := tagged_keyLists pk hpk tables waves hlen hwf
  have hcommon : commonIds ((tables.zip waves).map (fun p => setWave p.1 p.2)) pk
      = commonIds tables pk := commonIds_congr pk htk
  have hpkhdr : pk ∈ unionHeader ((tables.zip waves).map (fun p => setWave p.1 p.2)) := by
    rw [mem_unionHeader]
    cases tables with
    | nil => exact absurd rfl hne
    | cons t0 ts0 =>
        cases waves with
        | nil => simp at hlen
        | cons w0 ws0 =>
            refine ⟨setWave t0 w0, ?_, mem_setWave_header (hmem t0 (List.mem_cons_self _ _))⟩
            simp [List.zip_cons_cons]
  refine ⟨?_, ?_, ?_⟩
  · intro c
    rw [hhdr]
    exact long_tagged_mem_iff hne hlen hW
  · rw [hhdr]
    apply List.count_eq_one_of_mem (unionHeader_nodup (tagged_headers_nodup hW hhn))
    rw [mem_unionHeader]
    cases tables with
    | nil => exact absurd rfl hne
    | cons t0 ts0 =>
        cases waves with
        | nil => simp at hlen
        | cons w0 ws0 =>
            refine ⟨setWave t0 w0, ?_, ?_⟩
            · simp [List.zip_cons_cons]
            · rw [setWave_of_not_mem (hW t0 (List.mem_cons_self _ _))]
              simp
  · rw [hhdr]
    simp only [merge_datasets_long, concatTables]
    rw [hcommon, filter_cmap, cmap_map]
    apply cmap_congr
    intro p hp
    have hp1 : p.1 ∈ tables := (List.of_mem_zip hp).1
    exact long_tagged_block _ (commonIds tables pk) (hW p.1 hp1) (hwf p.1 hp1) hpk hpkhdr

/-- C9 witness: two one-row tables sharing the identifier 1 stack into
the described two-row shape. -/
theorem long_merge_characterization_witness :
    (∀ c : String, c ∈ (merge_datasets_long
        ([⟨["id", "x"], [[some (Val.intV 1), some (Val.intV 10)]]⟩,
          ⟨["id", "y"], [[some (Val.intV 1), some (Val.intV 100)]]⟩] : List Table)
        "id" [1, 2]).merged.header
      ↔ ((∃ t ∈ ([⟨["id", "x"], [[some (Val.intV 1), some (Val.intV 10)]]⟩,
          ⟨["id", "y"], [[some (Val.intV 1), some (Val.intV 100)]]⟩] : List Table), c ∈ t.header)
        ∨ c = "Wave")) ∧
    (merge_datasets_long
        ([⟨["id", "x"], [[some (Val.intV 1), some (Val.intV 10)]]⟩,
          ⟨["id", "y"], [[some (Val.intV 1), some (Val.intV 100)]]⟩] : List Table)
        "id" [1, 2]).merged.header.count "Wave" = 1 ∧
    (merge_datasets_long
        ([⟨["id", "x"], [[some (Val.intV 1), some (Val.intV 10)]]⟩,
          ⟨["id", "y"], [[some (Val.intV 1), some (Val.intV 100)]]⟩] : List Table)
        "id" [1, 2]).merged.rows
      = cmap (fun p =>
          (p.1.rows.filter (fun r => decide (cellAt p.1.header r "id"
              ∈ commonIds ([⟨["id", "x"], [[some (Val.intV 1), some (Val.intV 10)]]⟩,
                ⟨["id", "y"], [[some (Val.intV 1), some (Val.intV 100)]]⟩] : List Table) "id"))).map
            (fun r => (merge_datasets_long
                ([⟨["id", "x"], [[some (Val.intV 1), some (Val.intV 10)]]⟩,
                  ⟨["id", "y"], [[some (Val.intV 1), some (Val.intV 100)]]⟩] : List Table)
                "id" [1, 2]).merged.header.map
              (fun c => if c = "Wave" then some (Val.strV (waveLabel p.2))
                else cellAt p.1.header r c)))
        (([⟨["id", "x"], [[some (Val.intV 1), some (Val.intV 10)]]⟩,
          ⟨["id", "y"], [[some (Val.intV 1), some (Val.intV 100)]]⟩] : List Table).zip [1, 2]) :=
  long_merge_characterization _ "id" [1, 2] (by decide) (by decide) (by decide)
    (by decide) (by decide) (by decide) (by decide)

/-- C9 counterexample: with the identifier column named Wave, every
stacked row carries an identifier present in every input table (the
per-table count of such rows totals 2), yet the merged output has no
rows at all, because the engine overwrites the identifier column with
the wave labels before intersecting. -/
theorem c9_counterexample :
    (merge_datasets_long
        ([⟨["Wave"], [[some (Val.strV "b")]]⟩, ⟨["Wave"], [[some (Val.strV "b")]]⟩] : List Table)
        "Wave" [1, 2]).merged.rows.length = 0 ∧
    ((([⟨["Wave"], [[some (Val.strV "b")]]⟩, ⟨["Wave"], [[some (Val.strV "b")]]⟩] : List Table).map
        (fun t => (t.rows.filter (fun r => decide (cellAt t.header r "Wave"
          ∈ commonIds ([⟨["Wave"], [[some (Val.strV "b")]]⟩,
            ⟨["Wave"], [[some (Val.strV "b")]]⟩] : List Table) "Wave"))).length)).sum = 2) := by
  decide

/-! ## Wide merge lemmas (claims C2, C3 and C4) -/

/-- String append is cancellative on the right. -/
theorem string_append_right_cancel {a b s : String} (h : a ++ s = b ++ s) : a = b := by
  have hd := congrArg String.data h
  rw [String.data_append, String.data_append] at hd
  have h2 := List.append_cancel_right hd
  cases a with
  | mk da =>
      cases b with
      | mk db => exact congrArg String.mk h2

/-- idxOf? through a map fixing exactly the occurrences of the name. -/
theorem idxOf?_map_of_iff {f : String → String} {l : List String} {c : String}
    (h : ∀ d ∈ l, (f d = c ↔ d = c)) : idxOf? c (l.map f) = idxOf? c l := by
  induction l with
  | nil => rfl
  | cons d ds ih =>
      simp only [List.map_cons, idxOf?]
      by_cases hd : d = c
      · rw [if_pos hd, if_pos ((h d (List.mem_cons_self _ _)).mpr hd)]
      · rw [if_neg hd, if_neg (fun hq => hd ((h d (List.mem_cons_self _ _)).mp hq))]
        rw [ih (fun e he => h e (List.mem_cons_of_mem _ he))]

/-- The rename step of the wide merge keeps the key column occurrences
exactly when no suffixed name equals the key. -/
theorem renameWide_key_iff {t : Table} {pk : String} {w : Nat}
    (havoid : ∀ c ∈ t.header, c ≠ pk → c ++ waveSuffix w ≠ pk) :
    ∀ d ∈ t.header, ((if d = pk then d else d ++ waveSuffix w) = pk ↔ d = pk) := by
  intro d hd
  by_cases hdp : d = pk
  · simp [hdp]
  · rw [if_neg hdp]
    exact ⟨fun hq => absurd hq (havoid d hd hdp), fun hq => absurd hq hdp⟩

/-- Renaming does not disturb the key column values. -/
theorem keyList_renameWide {t : Table} {pk : String} {w : Nat}
    (havoid : ∀ c ∈ t.header, c ≠ pk → c ++ waveSuffix w ≠ pk) :
    keyList (renameWide t pk w) pk = keyList t pk := by
  unfold keyList renameWide
  apply List.map_congr_left
  intro r hr
  unfold cellAt
  rw [idxOf?_map_of_iff (renameWide_key_iff havoid)]

/-- The renamed header stays duplicate free. -/
theorem renameWide_header_nodup {t : Table} {pk : String} {w : Nat}
    (hn : t.header.Nodup)
    (havoid : ∀ c ∈ t.header, c ≠ pk → c ++ waveSuffix w ≠ pk) :
    (renameWide t pk w).header.Nodup := by
  apply hn.map_on
  intro x hx y hy hxy
  by_cases hxp : x = pk
  · by_cases hyp2 : y = pk
    · rw [hxp, hyp2]
    · rw [if_pos hxp, if_neg hyp2] at hxy
      exact absurd (hxp ▸ hxy).symm (havoid y hy hyp2)
  · by_cases hyp2 : y = pk
    · rw [if_neg hxp, if_pos hyp2] at hxy
      exact absurd (hyp2 ▸ hxy) (havoid x hx hxp)
    · rw [if_neg hxp, if_neg hyp2] at hxy
      exact string_append_right_cancel hxy

/-- The key survives renaming. -/
theorem renameWide_key_mem {t : Table} {pk : String} {w : Nat} (h : pk ∈ t.header) :
    pk ∈ (renameWide t pk w).header := by
  unfold renameWide
  simp only [List.mem_map]
  exact ⟨pk, h, by simp⟩

/-- Renamed tables stay rectangular. -/
theorem renameWide_wf {t : Table} {pk : String} {w : Nat} (h : t.WF) :
    (renameWide t pk w).WF := by
  intro r hr
  unfold renameWide at hr ⊢
  simp only [List.length_map]
  exact h r hr

/-- Non-key names of the renamed table are the suffixed originals. -/
theorem nonPk_renameWide {t : Table} {pk : String} {w : Nat}
    (havoid : ∀ c ∈ t.header, c ≠ pk → c ++ waveSuffix w ≠ pk) :
    nonPk pk (renameWide t pk w) = (nonPk pk t).map (fun c => c ++ waveSuffix w) := by
  unfold nonPk renameWide
  rw [filter_map_comm]
  have hpred : ∀ c ∈ t.header,
      (decide ((if c = pk then c else c ++ waveSuffix w) ≠ pk)) = decide (c ≠ pk) := by
    intro c hc
    by_cases hcp : c = pk
    · simp [hcp]
    · rw [if_neg hcp]
      simp only [decide_eq_decide]
      exact ⟨fun _ => hcp, fun _ => havoid c hc hcp⟩
  rw [List.filter_congr hpred]
  apply List.map_congr_left
  intro c hc
  rw [if_neg (by simpa using (List.mem_filter.mp hc).2)]

/-- Erasing the key position of a duplicate-free header filters the
key out. -/
theorem eraseIdx_eq_filter_of_nodup {pk : String} :
    ∀ (l : List String), l.Nodup → ∀ {j : Nat}, idxOf? pk l = some j →
      l.eraseIdx j = l.filter (fun c => decide (c ≠ pk)) := by
  intro l
  induction l with
  | nil => intro _ j h; simp [idxOf?] at h
  | cons d ds ih =>
      intro hn j hj
      by_cases hd : d = pk
      · simp only [idxOf?, if_pos hd, Option.some.injEq] at hj
        subst hj
        subst hd
        simp only [List.eraseIdx_cons_zero, List.filter_cons]
        rw [if_neg (by simp)]
        have hnotin : d ∉ ds := (List.nodup_cons.mp hn).1
        exact (List.filter_eq_self.mpr (fun a ha => by
          simp only [decide_eq_true_eq]
          intro hq
          rw [hq] at ha
          exact hnotin ha)).symm
      · simp only [idxOf?, if_neg hd, Option.map_eq_some'] at hj
        obtain ⟨j2, hj2, rfl⟩ := hj
        simp only [List.eraseIdx_cons_succ, List.filter_cons]
        rw [if_pos (by simpa using hd)]
        rw [ih (List.nodup_cons.mp hn).2 hj2]

/-- The right header without the key equals its non-key names, for a
duplicate-free header containing the key. -/
theorem sansKeyHeader_eq_nonPk {R : Table} {pk : String} (hn : R.header.Nodup)
    (hm : pk ∈ R.header) : sansKeyHeader R pk = nonPk pk R := by
  obtain ⟨j, hj⟩ := idxOf?_isSome_of_mem hm
  unfold sansKeyHeader
  rw [hj]
  exact eraseIdx_eq_filter_of_nodup R.header hn hj

/-- Membership in an image concatenation. -/
theorem mem_cmap {α β : Type} {f : α → List β} {l : List α} {b : β} :
    b ∈ cmap f l ↔ ∃ a ∈ l, b ∈ f a := by
  induction l with
  | nil => simp [cmap]
  | cons a as ih =>
      simp only [cmap, List.mem_append, ih, List.mem_cons]
      constructor
      · rintro (h1 | ⟨a2, ha2, hb⟩)
        · exact ⟨a, Or.inl rfl, h1⟩
        · exact ⟨a2, Or.inr ha2, hb⟩
      · rintro ⟨a2, (rfl | ha2), hb⟩
        · exact Or.inl hb
        · exact Or.inr ⟨a2, ha2, hb⟩

/-- Filtering away one name and counting it partition the length. -/
theorem length_filter_ne_add_count (a : String) (l : List String) :
    (l.filter (fun c => decide (c ≠ a))).length + l.count a = l.length := by
  induction l with
  | nil => simp
  | cons d ds ih =>
      simp only [List.filter_cons, List.count_cons, List.length_cons]
      by_cases hd : d = a
      · rw [if_neg (by simp [hd]), if_pos (by simp [hd])]
        omega
      · have hne : ¬ ((d == a) = true) := by
          simp only [beq_iff_eq]
          exact hd
        rw [if_pos (by simpa using hd), if_neg hne]
        simp only [List.length_cons]
        omega

/-- Counting matches of a value in a duplicate-free list. -/
theorem length_filter_eq_of_nodup {l : List Cell} (h : l.Nodup) (k : Cell) :
    (l.filter (fun x => decide (x = k))).length = if k ∈ l then 1 else 0 := by
  induction l with
  | nil => simp
  | cons a as ih =>
      obtain ⟨hna, hnd⟩ := List.nodup_cons.mp h
      by_cases ha : a = k
      · subst ha
        simp only [List.filter_cons]
        rw [if_pos (by simp)]
        simp only [List.length_cons, ih hnd, if_neg hna, if_pos (List.mem_cons_self _ _)]
      · simp only [List.filter_cons]
        rw [if_neg (by simpa using ha)]
        rw [ih hnd]
        by_cases hm : k ∈ as
        · rw [if_pos hm, if_pos (List.mem_cons_of_mem _ hm)]
        · rw [if_neg hm, if_neg (by
            intro hq
            rcases List.mem_cons.mp hq with hq2 | hq2
            · exact ha hq2.symm
            · exact hm hq2)]

/-- Number of right rows matching a key, under duplicate-free keys. -/
theorem matchesIn_length {R : Table} {pk : String} (hRk : (keyList R pk).Nodup) (k : Cell) :
    (matchesIn R pk k).length = if k ∈ keyList R pk then 1 else 0 := by
  unfold matchesIn
  have h1 : (R.rows.filter (fun r => decide (cellAt R.header r pk = k))).length
      = ((keyList R pk).filter (fun x => decide (x = k))).length := by
    unfold keyList
    rw [filter_map_comm, List.length_map]
  rw [h1, length_filter_eq_of_nodup hRk]

/-- Under the disjointness conditions a pd.merge step succeeds, with
no suffix decoration: the merged header is the left header followed by
the non-key right columns. -/
theorem mergePair_sane (L R : Table) (pk : String) (how : JoinType)
    (hLn : L.header.Nodup) (hLm : pk ∈ L.header)
    (hRn : R.header.Nodup) (hRm : pk ∈ R.header)
    (hdisj : ∀ c ∈ nonPk pk L, c ∉ nonPk pk R) :
    mergePair L R pk how = some ⟨L.header ++ nonPk pk R, mergeRows L R pk how⟩ ∧
    (L.header ++ nonPk pk R).Nodup ∧ pk ∈ L.header ++ nonPk pk R ∧
    (L.header ++ nonPk pk R).filter (fun c => decide (c ≠ pk))
      = nonPk pk L ++ nonPk pk R := by
  have hsans : sansKeyHeader R pk = nonPk pk R := sansKeyHeader_eq_nonPk hRn hRm
  have hleft : L.header.map (suffixIf R.header pk "_x") = L.header := by
    have h1 : ∀ c ∈ L.header, suffixIf R.header pk "_x" c = c := by
      intro c hc
      unfold suffixIf
      by_cases hcp : c = pk
      · rw [if_neg (by simp [hcp])]
      · by_cases hcr : c ∈ R.header
        · exact absurd (List.mem_filter.mpr ⟨hcr, by simpa using hcp⟩)
            (hdisj c (List.mem_filter.mpr ⟨hc, by simpa using hcp⟩))
        · rw [if_neg (fun hq => hcr hq.2)]
    exact (List.map_congr_left h1).trans (List.map_id' _)
  have hright : (sansKeyHeader R pk).map (suffixIf L.header pk "_y") = nonPk pk R := by
    rw [hsans]
    have h1 : ∀ c ∈ nonPk pk R, suffixIf L.header pk "_y" c = c := by
      intro c hc
      have hcp : c ≠ pk := by simpa using (List.mem_filter.mp hc).2
      unfold suffixIf
      by_cases hcl : c ∈ L.header
      · exact absurd hc (hdisj c (List.mem_filter.mpr ⟨hcl, by simpa using hcp⟩))
      · rw [if_neg (fun hq => hcl hq.2)]
    exact (List.map_congr_left h1).trans (List.map_id' _)
  have hhdr : mergedHeader L R pk = L.header ++ nonPk pk R := by
    unfold mergedHeader
    rw [hleft, hright]
  have hnodup : (L.header ++ nonPk pk R).Nodup := by
    apply List.Nodup.append hLn (hRn.filter _)
    intro a ha hb
    have hbp : a ≠ pk := by simpa using (List.mem_filter.mp hb).2
    exact hdisj a (List.mem_filter.mpr ⟨ha, by simpa using hbp⟩) hb
  refine ⟨?_, hnodup, List.mem_append.mpr (Or.inl hLm), ?_⟩
  · unfold mergePair
    rw [if_pos ⟨List.count_eq_one_of_mem hLn hLm, List.count_eq_one_of_mem hRn hRm⟩, hhdr]
  · rw [List.filter_append]
    have h2 : (nonPk pk R).filter (fun c => decide (c ≠ pk)) = nonPk pk R := by
      apply List.filter_eq_self.mpr
      intro a ha
      exact (List.mem_filter.mp ha).2
    rw [h2]
    rfl

/-- Keys of the merged rows of a sane inner step: the left keys
filtered by membership among the right keys. -/
theorem innerJoinRows_keys (L R : Table) (pk : String)
    (hLm : pk ∈ L.header) (hLwf : L.WF) (hRk : (keyList R pk).Nodup) :
    (innerJoinRows L R pk).map (fun r => cellAt (L.header ++ nonPk pk R) r pk)
      = (keyList L pk).filter (fun k => decide (k ∈ keyList R pk)) := by
  obtain ⟨i, hi⟩ := idxOf?_isSome_of_mem hLm
  obtain ⟨hilt, _⟩ := idxOf?_some hi
  have hidx : idxOf? pk (L.header ++ nonPk pk R) = some i := by
    rw [idxOf?_append_of_mem _ hLm, hi]
  have hkey : ∀ l ∈ L.rows, ∀ x : List Cell,
      cellAt (L.header ++ nonPk pk R) (l ++ x) pk = cellAt L.header l pk := by
    intro l hl x
    unfold cellAt
    rw [hidx, hi]
    exact getD_append_left (by rw [hLwf l hl]; exact hilt) none
  unfold innerJoinRows keyList
  suffices haux : ∀ (rs : List (List Cell)), (∀ r ∈ rs, r ∈ L.rows) →
      (cmap (fun l => (matchesIn R pk (cellAt L.header l pk)).map
          (fun x => l ++ sansKeyRow R pk x)) rs).map
        (fun r => cellAt (L.header ++ nonPk pk R) r pk)
      = (rs.map (fun l => cellAt L.header l pk)).filter
          (fun k => decide (k ∈ keyList R pk)) by
    exact haux L.rows (fun r hr => hr)
  intro rs
  induction rs with
  | nil => intro _; rfl
  | cons l rs2 ih =>
      intro hsub
      have hl : l ∈ L.rows := hsub l (List.mem_cons_self _ _)
      simp only [cmap, List.map_append, List.map_cons, List.filter_cons]
      rw [ih (fun r hr => hsub r (List.mem_cons_of_mem _ hr))]
      have hconst : (matchesIn R pk (cellAt L.header l pk)).map
            ((fun r => cellAt (L.header ++ nonPk pk R) r pk) ∘
              (fun x => l ++ sansKeyRow R pk x))
          = (matchesIn R pk (cellAt L.header l pk)).map
            (fun _ => cellAt L.header l pk) :=
        List.map_congr_left (fun x _ => hkey l hl (sansKeyRow R pk x))
      rw [List.map_map]
      rw [hconst]
      by_cases hm : cellAt L.header l pk ∈ keyList R pk
      · rw [if_pos (by simpa using hm)]
        have hlen1 : (matchesIn R pk (cellAt L.header l pk)).length = 1 := by
          rw [matchesIn_length hRk, if_pos hm]
        cases hms : matchesIn R pk (cellAt L.header l pk) with
        | nil => rw [hms] at hlen1; simp at hlen1
        | cons x xs =>
            rw [hms] at hlen1
            simp only [List.length_cons] at hlen1
            have hxs : xs = [] := List.length_eq_zero.mp (by omega)
            subst hxs
            rfl
      · rw [if_neg (by simpa using hm)]
        have hlen0 : (matchesIn R pk (cellAt L.header l pk)).length = 0 := by
          rw [matchesIn_length hRk, if_neg hm]
        rw [List.length_eq_zero.mp hlen0]
        rfl

/-- Every merged row of a sane inner step has full width. -/
theorem innerJoinRows_wf (L R : Table) (pk : String)
    (hLwf : L.WF) (hRn : R.header.Nodup) (hRm : pk ∈ R.header) (hRwf : R.WF) :
    ∀ r ∈ innerJoinRows L R pk, r.length = (L.header ++ nonPk pk R).length := by
  intro r hr
  unfold innerJoinRows at hr
  obtain ⟨l, hl, hr2⟩ := mem_cmap.mp hr
  obtain ⟨x, hx, rfl⟩ := List.mem_map.mp hr2
  have hxR : x ∈ R.rows := List.mem_filter.mp hx |>.1
  obtain ⟨j, hj⟩ := idxOf?_isSome_of_mem hRm
  obtain ⟨hjlt, _⟩ := idxOf?_some hj
  have hsx : (sansKeyRow R pk x).length = R.header.length - 1 := by
    unfold sansKeyRow
    rw [hj]
    show (x.eraseIdx j).length = R.header.length - 1
    have hjx : j < x.length := by rw [hRwf x hxR]; exact hjlt
    have h2 := List.length_eraseIdx_add_one hjx
    have h3 : x.length = R.header.length := hRwf x hxR
    omega
  have hnp : (nonPk pk R).length + 1 = R.header.length := by
    have h1 := length_filter_ne_add_count pk R.header
    rw [List.count_eq_one_of_mem hRn hRm] at h1
    exact h1
  simp only [List.length_append, hLwf l hl, hsx]
  omega

/-- A failed merge propagates through the fold. -/
theorem foldl_bind_none (pk : String) (how : JoinType) (rs : List Table) :
    rs.foldl (fun a u => a.bind (fun l => mergePair l u pk how)) none = none := by
  induction rs with
  | nil => rfl
  | cons u us ih =>
      rw [List.foldl_cons]
      exact ih

/-- Length of the header without the key, for a header containing it. -/
theorem sansKeyHeader_length {R : Table} {pk : String} (h : pk ∈ R.header) :
    (sansKeyHeader R pk).length + 1 = R.header.length := by
  obtain ⟨j, hj⟩ := idxOf?_isSome_of_mem h
  obtain ⟨hjlt, _⟩ := idxOf?_some hj
  unfold sansKeyHeader
  rw [hj]
  show (R.header.eraseIdx j).length + 1 = R.header.length
  exact List.length_eraseIdx_add_one hjlt

/-- Header length through the successful merge fold: the accumulated
width plus one less than each incoming width. -/
theorem wide_fold_length (pk : String) (how : JoinType) :
    ∀ (rs : List Table) (acc M : Table),
      rs.foldl (fun a u => a.bind (fun l => mergePair l u pk how)) (some acc) = some M →
      M.header.length = acc.header.length + (rs.map (fun u => u.header.length - 1)).sum := by
  intro rs
  induction rs with
  | nil =>
      intro acc M h
      simp only [List.foldl_nil, Option.some.injEq] at h
      subst h
      simp
  | cons u us ih =>
      intro acc M h
      rw [List.foldl_cons] at h
      cases hmp : mergePair acc u pk how with
      | none =>
          rw [show (some acc).bind (fun l => mergePair l u pk how) = none from hmp] at h
          rw [foldl_bind_none] at h
          exact absurd h (by simp)
      | some M1 =>
          rw [show (some acc).bind (fun l => mergePair l u pk how) = some M1 from hmp] at h
          have hlen1 := ih M1 M h
          unfold mergePair at hmp
          by_cases hg : (acc.header.count pk = 1 ∧ u.header.count pk = 1)
          · rw [if_pos hg] at hmp
            have hM1e : M1 = ⟨mergedHeader acc u pk, mergeRows acc u pk how⟩ := by
              injection hmp with hq
              exact hq.symm
            have humem : pk ∈ u.header := by
              have h2 := hg.2
              have h0 : 0 < u.header.count pk := by omega
              exact List.count_pos_iff.mp h0
            have hmh : (mergedHeader acc u pk).length
                = acc.header.length + (u.header.length - 1) := by
              unfold mergedHeader
              rw [List.length_append, List.length_map, List.length_map]
              have h3 := sansKeyHeader_length humem
              omega
            rw [hlen1, hM1e]
            simp only [List.map_cons, List.sum_cons]
            rw [hmh]
            omega
          · rw [if_neg hg] at hmp
            exact absurd hmp (by simp)

/-- Header facts through a sane merge fold, for every join mode: the
fold succeeds and the non-key names of the result are those of the
accumulated table and of every folded table. -/
theorem wide_fold_header (pk : String) (how : JoinType) :
    ∀ (rs : List Table) (acc : Table),
      acc.header.Nodup → pk ∈ acc.header →
      (∀ u ∈ rs, u.header.Nodup ∧ pk ∈ u.header) →
      (∀ u ∈ rs, ∀ c ∈ nonPk pk acc, c ∉ nonPk pk u) →
      rs.Pairwise (fun u v => ∀ c ∈ nonPk pk u, c ∉ nonPk pk v) →
      ∃ M, rs.foldl (fun a u => a.bind (fun l => mergePair l u pk how)) (some acc) = some M ∧
        M.header.Nodup ∧ pk ∈ M.header ∧
        (∀ c, c ∈ nonPk pk M ↔ c ∈ nonPk pk acc ∨ ∃ u ∈ rs, c ∈ nonPk pk u) := by
  intro rs
  induction rs with
  | nil =>
      intro acc h1 h2 _ _ _
      exact ⟨acc, rfl, h1, h2, fun c => by simp⟩
  | cons u us ih =>
      intro acc h1 h2 hrs hdisj hpw
      have hu := hrs u (List.mem_cons_self _ _)
      have hdu := hdisj u (List.mem_cons_self _ _)
      obtain ⟨hsome, hnodupM1, hmemM1, hfilterM1⟩ :=
        mergePair_sane acc u pk how h1 h2 hu.1 hu.2 hdu
      have hM1f : nonPk pk (⟨acc.header ++ nonPk pk u, mergeRows acc u pk how⟩ : Table)
          = nonPk pk acc ++ nonPk pk u := hfilterM1
      have hdisj2 : ∀ v ∈ us,
          ∀ c ∈ nonPk pk (⟨acc.header ++ nonPk pk u, mergeRows acc u pk how⟩ : Table),
            c ∉ nonPk pk v := by
        intro v hv c hc
        rw [hM1f] at hc
        rcases List.mem_append.mp hc with h4 | h4
        · exact hdisj v (List.mem_cons_of_mem _ hv) c h4
        · exact (List.pairwise_cons.mp hpw).1 v hv c h4
      obtain ⟨M, hM, hMn, hMm, hMf⟩ := ih ⟨acc.header ++ nonPk pk u, mergeRows acc u pk how⟩
        hnodupM1 hmemM1 (fun v hv => hrs v (List.mem_cons_of_mem _ hv)) hdisj2
        (List.pairwise_cons.mp hpw).2
      refine ⟨M, ?_, hMn, hMm, ?_⟩
      · rw [List.foldl_cons]
        rw [show (some acc).bind (fun l => mergePair l u pk how)
          = some ⟨acc.header ++ nonPk pk u, mergeRows acc u pk how⟩ from hsome]
        exact hM
      · intro c
        rw [hMf c, hM1f]
        simp only [List.mem_append, List.mem_cons]
        constructor
        · rintro ((h4 | h4) | ⟨v, hv, h5⟩)
          · exact Or.inl h4
          · exact Or.inr ⟨u, Or.inl rfl, h4⟩
          · exact Or.inr ⟨v, Or.inr hv, h5⟩
        · rintro (h4 | ⟨v, (rfl | hv), h5⟩)
          · exact Or.inl (Or.inl h4)
          · exact Or.inl (Or.inr h5)
          · exact Or.inr ⟨v, hv, h5⟩

/-- Key facts through a sane inner merge fold: the fold succeeds and
the keys of the result are the accumulated keys filtered through every
folded table. -/
theorem wide_fold_inner (pk : String) :
    ∀ (rs : List Table) (acc : Table),
      acc.header.Nodup → pk ∈ acc.header → acc.WF →
      (∀ u ∈ rs, u.header.Nodup ∧ pk ∈ u.header ∧ u.WF ∧ (keyList u pk).Nodup) →
      (∀ u ∈ rs, ∀ c ∈ nonPk pk acc, c ∉ nonPk pk u) →
      rs.Pairwise (fun u v => ∀ c ∈ nonPk pk u, c ∉ nonPk pk v) →
      ∃ M, rs.foldl (fun a u => a.bind (fun l => mergePair l u pk .inner)) (some acc) = some M ∧
        M.header.Nodup ∧ pk ∈ M.header ∧ M.WF ∧
        keyList M pk = rs.foldl (fun ks u => ks.filter (fun k => decide (k ∈ keyList u pk)))
          (keyList acc pk) := by
  intro rs
  induction rs with
  | nil =>
      intro acc h1 h2 h3 _ _ _
      exact ⟨acc, rfl, h1, h2, h3, rfl⟩
  | cons u us ih =>
      intro acc h1 h2 h3 hrs hdisj hpw
      obtain ⟨hun, hum, huwf, huk⟩ := hrs u (List.mem_cons_self _ _)
      have hdu := hdisj u (List.mem_cons_self _ _)
      obtain ⟨hsome, hnodupM1, hmemM1, hfilterM1⟩ :=
        mergePair_sane acc u pk .inner h1 h2 hun hum hdu
      have hkeys1 : keyList (⟨acc.header ++ nonPk pk u, mergeRows acc u pk .inner⟩ : Table) pk
          = (keyList acc pk).filter (fun k => decide (k ∈ keyList u pk)) := by
        show (innerJoinRows acc u pk).map (fun r => cellAt (acc.header ++ nonPk pk u) r pk) = _
        exact innerJoinRows_keys acc u pk h2 h3 huk
      have hwf1 : (⟨acc.header ++ nonPk pk u, mergeRows acc u pk .inner⟩ : Table).WF := by
        intro r hr
        exact innerJoinRows_wf acc u pk h3 hun hum huwf r hr
      have hM1f : nonPk pk (⟨acc.header ++ nonPk pk u, mergeRows acc u pk .inner⟩ : Table)
          = nonPk pk acc ++ nonPk pk u := hfilterM1
      have hdisj2 : ∀ v ∈ us,
          ∀ c ∈ nonPk pk (⟨acc.header ++ nonPk pk u, mergeRows acc u pk .inner⟩ : Table),
            c ∉ nonPk pk v := by
        intro v hv c hc
        rw [hM1f] at hc
        rcases List.mem_append.mp hc with h4 | h4
        · exact hdisj v (List.mem_cons_of_mem _ hv) c h4
        · exact (List.pairwise_cons.mp hpw).1 v hv c h4
      obtain ⟨M, hM, hMn, hMm, hMwf, hMk⟩ :=
        ih ⟨acc.header ++ nonPk pk u, mergeRows acc u pk .inner⟩ hnodupM1 hmemM1 hwf1
          (fun v hv => hrs v (List.mem_cons_of_mem _ hv)) hdisj2 (List.pairwise_cons.mp hpw).2
      refine ⟨M, ?_, hMn, hMm, hMwf, ?_⟩
      · rw [List.foldl_cons]
        rw [show (some acc).bind (fun l => mergePair l u pk .inner)
          = some ⟨acc.header ++ nonPk pk u, mergeRows acc u pk .inner⟩ from hsome]
        exact hM
      · rw [List.foldl_cons, hMk, hkeys1]

/-- Disjoint renamed non-key names, from the pairwise suffix condition. -/
theorem nonPk_renamed_disjoint {p q : Table × Nat} {pk : String}
    (hap : ∀ c ∈ p.1.header, c ≠ pk → c ++ waveSuffix p.2 ≠ pk)
    (haq : ∀ c ∈ q.1.header, c ≠ pk → c ++ waveSuffix q.2 ≠ pk)
    (hrel : ∀ c ∈ p.1.header, c ≠ pk → ∀ d ∈ q.1.header, d ≠ pk →
      c ++ waveSuffix p.2 ≠ d ++ waveSuffix q.2) :
    ∀ c ∈ nonPk pk (renameWide p.1 pk p.2), c ∉ nonPk pk (renameWide q.1 pk q.2) := by
  intro c hc hcq
  rw [nonPk_renameWide hap] at hc
  rw [nonPk_renameWide haq] at hcq
  obtain ⟨c0, hc0, rfl⟩ := List.mem_map.mp hc
  obtain ⟨d0, hd0, heq⟩ := List.mem_map.mp hcq
  have hc0m := List.mem_filter.mp hc0
  have hd0m := List.mem_filter.mp hd0
  exact hrel c0 hc0m.1 (by simpa using hc0m.2) d0 hd0m.1 (by simpa using hd0m.2) heq.symm

/-- Renaming leaves the key columns of a zipped list unchanged. -/
theorem renamed_keyLists (pk : String) (ts : List Table) (ws : List Nat)
    (hlen : ws.length = ts.length)
    (havoid : ∀ p ∈ ts.zip ws, ∀ c ∈ p.1.header, c ≠ pk → c ++ waveSuffix p.2 ≠ pk) :
    ((ts.zip ws).map (fun p => renameWide p.1 pk p.2)).map (fun t => keyList t pk)
      = ts.map (fun t => keyList t pk) := by
  rw [List.map_map]
  have h1 : (ts.zip ws).map ((fun t => keyList t pk) ∘ (fun p => renameWide p.1 pk p.2))
      = (ts.zip ws).map (fun p => keyList p.1 pk) := by
    apply List.map_congr_left
    intro p hp
    exact keyList_renameWide (havoid p hp)
  rw [h1]
  have h2 : (ts.zip ws).map (fun p => keyList p.1 pk)
      = ((ts.zip ws).map Prod.fst).map (fun t => keyList t pk) := by
    rw [List.map_map]
    rfl
  rw [h2, List.map_fst_zip ts ws (by omega)]

/-- Pairwise disjointness of renamed non-key names over a zipped list. -/
theorem pairwise_renamed {pk : String} {zs : List (Table × Nat)}
    (havoid : ∀ p ∈ zs, ∀ c ∈ p.1.header, c ≠ pk → c ++ waveSuffix p.2 ≠ pk)
    (hpw : zs.Pairwise (fun p q => ∀ c ∈ p.1.header, c ≠ pk →
      ∀ d ∈ q.1.header, d ≠ pk → c ++ waveSuffix p.2 ≠ d ++ waveSuffix q.2)) :
    (zs.map (fun p => renameWide p.1 pk p.2)).Pairwise
      (fun u v => ∀ c ∈ nonPk pk u, c ∉ nonPk pk v) := by
  induction zs with
  | nil => simp
  | cons p zs ih =>
      simp only [List.map_cons, List.pairwise_cons] at hpw ⊢
      obtain ⟨hhead, htail⟩ := hpw
      refine ⟨?_, ih (fun q hq => havoid q (List.mem_cons_of_mem _ hq)) htail⟩
      intro v hv
      obtain ⟨q, hq, rfl⟩ := List.mem_map.mp hv
      exact nonPk_renamed_disjoint (havoid p (List.mem_cons_self _ _))
        (havoid q (List.mem_cons_of_mem _ hq)) (hhead q hq)

set_option maxHeartbeats 2000000 in
/-- C2: with de-duplicated rectangular tables all containing the
identifier column, under the wave-suffix sanity conditions, the wide
inner merge succeeds and produces exactly one row per identifier value
in the intersection of the identifier sets: its key column is
duplicate free and ranges over exactly the intersection, its row count
is the intersection size, and it is at most each input row count. -/
theorem wide_inner_row_count (tables : List Table) (pk : String) (waves : List Nat)
    (hlen : waves.length = tables.length) (hsane : WideSane tables pk waves)
    (hwf : ∀ t ∈ tables, t.WF) (hkeys : ∀ t ∈ tables, (keyList t pk).Nodup) :
    ∃ M, merge_datasets_wide tables pk .inner waves = some M ∧
      M.rows.length = (interKeys tables pk).card ∧
      (∀ t ∈ tables, M.rows.length ≤ t.rows.length) ∧
      (keyList M pk).Nodup ∧
      (∀ k : Cell, k ∈ keyList M pk ↔ k ∈ interKeys tables pk) := by
  obtain ⟨hne, hfa, havoid, hpw⟩ := hsane
  cases tables with
  | nil => exact absurd rfl hne
  | cons t1 ts =>
      cases waves with
      | nil => simp at hlen
      | cons w1 ws =>
          rw [List.zip_cons_cons] at havoid hpw
          have hmemt1 : t1 ∈ t1 :: ts := List.mem_cons_self _ _
          have hav1 : ∀ c ∈ t1.header, c ≠ pk → c ++ waveSuffix w1 ≠ pk :=
            havoid (t1, w1) (List.mem_cons_self _ _)
          have hlen2 : ws.length = ts.length := by simpa using hlen
          have hmerge : merge_datasets_wide (t1 :: ts) pk .inner (w1 :: ws)
              = ((ts.zip ws).map (fun p => renameWide p.1 pk p.2)).foldl
                  (fun a u => a.bind (fun l => mergePair l u pk .inner))
                  (some (renameWide t1 pk w1)) := by
            unfold merge_datasets_wide
            rw [List.zip_cons_cons, List.map_cons]
          have h1 : (renameWide t1 pk w1).header.Nodup :=
            renameWide_header_nodup (hfa t1 hmemt1).1 hav1
          have h2 : pk ∈ (renameWide t1 pk w1).header :=
            renameWide_key_mem (hfa t1 hmemt1).2
          have h3 : (renameWide t1 pk w1).WF := renameWide_wf (hwf t1 hmemt1)
          have hrs : ∀ u ∈ (ts.zip ws).map (fun p => renameWide p.1 pk p.2),
              u.header.Nodup ∧ pk ∈ u.header ∧ u.WF ∧ (keyList u pk).Nodup := by
            intro u hu
            obtain ⟨p, hp, rfl⟩ := List.mem_map.mp hu
            have hp1 : p.1 ∈ t1 :: ts := List.mem_cons_of_mem _ (List.of_mem_zip hp).1
            have havp := havoid p (List.mem_cons_of_mem _ hp)
            refine ⟨renameWide_header_nodup (hfa p.1 hp1).1 havp,
              renameWide_key_mem (hfa p.1 hp1).2, renameWide_wf (hwf p.1 hp1), ?_⟩
            rw [keyList_renameWide havp]
            exact hkeys p.1 hp1
          have hdisj : ∀ u ∈ (ts.zip ws).map (fun p => renameWide p.1 pk p.2),
              ∀ c ∈ nonPk pk (renameWide t1 pk w1), c ∉ nonPk pk u := by
            intro u hu
            obtain ⟨p, hp, rfl⟩ := List.mem_map.mp hu
            have havp := havoid p (List.mem_cons_of_mem _ hp)
            exact nonPk_renamed_disjoint hav1 havp ((List.pairwise_cons.mp hpw).1 p hp)
          have hpw2 : ((ts.zip ws).map (fun p => renameWide p.1 pk p.2)).Pairwise
              (fun u v => ∀ c ∈ nonPk pk u, c ∉ nonPk pk v) :=
            pairwise_renamed (fun q hq => havoid q (List.mem_cons_of_mem _ hq))
              (List.pairwise_cons.mp hpw).2
          obtain ⟨M, hM, hMn, hMm, hMwf, hMk⟩ :=
            wide_fold_inner pk ((ts.zip ws).map (fun p => renameWide p.1 pk p.2))
              (renameWide t1 pk w1) h1 h2 h3 hrs hdisj hpw2
          have hkr1 : keyList (renameWide t1 pk w1) pk = keyList t1 pk :=
            keyList_renameWide hav1
          have hfold : keyList M pk
              = ts.foldl (fun ks u => ks.filter (fun k => decide (k ∈ keyList u pk)))
                  (keyList t1 pk) := by
            rw [hMk, hkr1]
            apply foldl_filter_congr
            exact renamed_keyLists pk ts ws hlen2
              (fun p hp => havoid p (List.mem_cons_of_mem _ hp))
          have hmemM : ∀ k : Cell, k ∈ keyList M pk ↔ ∀ u ∈ t1 :: ts, k ∈ keyList u pk := by
            intro k
            rw [hfold, mem_foldl_filter]
            constructor
            · rintro ⟨ha, hb⟩ u hu
              rcases List.mem_cons.mp hu with rfl | hu2
              · exact ha
              · exact hb u hu2
            · intro h
              exact ⟨h t1 hmemt1, fun u hu => h u (List.mem_cons_of_mem _ hu)⟩
          have hnodupM : (keyList M pk).Nodup := by
            rw [hfold]
            exact nodup_foldl_filter pk ts _ (hkeys t1 hmemt1)
          have hiter : ∀ k : Cell, k ∈ keyList M pk ↔ k ∈ interKeys (t1 :: ts) pk := by
            intro k
            rw [hmemM k, mem_interKeys (by simp) pk]
          have hcard : (keyList M pk).length = (interKeys (t1 :: ts) pk).card := by
            have hfs : (keyList M pk).toFinset = interKeys (t1 :: ts) pk := by
              apply Finset.ext
              intro k
              rw [List.mem_toFinset]
              exact hiter k
            rw [← hfs, List.toFinset_card_of_nodup hnodupM]
          have hrowlen : M.rows.length = (keyList M pk).length := by
            unfold keyList
            rw [List.length_map]
          refine ⟨M, by rw [hmerge]; exact hM, by rw [hrowlen, hcard], ?_, hnodupM, hiter⟩
          intro t ht
          rw [hrowlen, hcard]
          have hsub : interKeys (t1 :: ts) pk ⊆ keyFinset t pk := by
            intro k hk
            have := (mem_interKeys (by simp) pk k).mp hk t ht
            unfold keyFinset
            rw [List.mem_toFinset]
            exact this
          calc (interKeys (t1 :: ts) pk).card
              ≤ (keyFinset t pk).card := Finset.card_le_card hsub
            _ ≤ (keyList t pk).length := List.toFinset_card_le _
            _ = t.rows.length := by unfold keyList; rw [List.length_map]

/-- C2 witness: two de-duplicated tables with intersection of size 1
merge to a single row bounded by both input sizes. -/
theorem wide_inner_row_count_witness :
    ∃ M, merge_datasets_wide
        ([⟨["id", "x"], [[some (Val.intV 1), some (Val.intV 10)],
            [some (Val.intV 2), some (Val.intV 20)]]⟩,
          ⟨["id", "y"], [[some (Val.intV 1), some (Val.intV 100)],
            [some (Val.intV 3), some (Val.intV 300)]]⟩] : List Table) "id" .inner [1, 2]
      = some M ∧
      M.rows.length = (interKeys
        ([⟨["id", "x"], [[some (Val.intV 1), some (Val.intV 10)],
            [some (Val.intV 2), some (Val.intV 20)]]⟩,
          ⟨["id", "y"], [[some (Val.intV 1), some (Val.intV 100)],
            [some (Val.intV 3), some (Val.intV 300)]]⟩] : List Table) "id").card ∧
      (∀ t ∈ ([⟨["id", "x"], [[some (Val.intV 1), some (Val.intV 10)],
            [some (Val.intV 2), some (Val.intV 20)]]⟩,
          ⟨["id", "y"], [[some (Val.intV 1), some (Val.intV 100)],
            [some (Val.intV 3), some (Val.intV 300)]]⟩] : List Table),
        M.rows.length ≤ t.rows.length) ∧
      (keyList M "id").Nodup ∧
      (∀ k : Cell, k ∈ keyList M "id" ↔ k ∈ interKeys
        ([⟨["id", "x"], [[some (Val.intV 1), some (Val.intV 10)],
            [some (Val.intV 2), some (Val.intV 20)]]⟩,
          ⟨["id", "y"], [[some (Val.intV 1), some (Val.intV 100)],
            [some (Val.intV 3), some (Val.intV 300)]]⟩] : List Table) "id") :=
  wide_inner_row_count _ "id" [1, 2] (by decide)
    (by
      refine ⟨by decide, by decide, by decide, ?_⟩
      decide)
    (by decide) (by decide)

set_option maxHeartbeats 2000000 in
/-- C3 (amended): whenever the wide merge returns a table and every
input carries the identifier exactly once, the output column count is
one plus the total number of non-identifier input columns, for every
join mode; and under the wave-suffix sanity conditions the merge
succeeds with every non-identifier output column equal to a
non-identifier column name of its source table with that table's wave
suffix appended.  The amendment restricts the suffix-shape clause to
non-colliding suffixed names: with colliding wave labels pd.merge
decorates the clashing names with _x and _y (see the counterexample),
while the count clause needs no such restriction. -/
theorem wide_column_count (tables : List Table) (pk : String) (how : JoinType)
    (waves : List Nat) (hlen : waves.length = tables.length)
    (hcount : ∀ t ∈ tables, t.header.count pk = 1) :
    (∀ M : Table, merge_datasets_wide tables pk how waves = some M →
      M.header.length = 1 + (tables.map (fun t => (nonPk pk t).length)).sum) ∧
    (WideSane tables pk waves →
      ∃ M, merge_datasets_wide tables pk how waves = some M ∧
        ∀ c ∈ M.header, c ≠ pk →
          ∃ p ∈ tables.zip waves, ∃ orig, orig ∈ p.1.header ∧ orig ≠ pk ∧
            c = orig ++ waveSuffix p.2) := by
  constructor
  · intro M hM
    cases tables with
    | nil => exact absurd hM (by simp [merge_datasets_wide])
    | cons t1 ts =>
        cases waves with
        | nil => simp at hlen
        | cons w1 ws =>
            have hlen2 : ws.length = ts.length := by simpa using hlen
            have hmerge : merge_datasets_wide (t1 :: ts) pk how (w1 :: ws)
                = ((ts.zip ws).map (fun p => renameWide p.1 pk p.2)).foldl
                    (fun a u => a.bind (fun l => mergePair l u pk how))
                    (some (renameWide t1 pk w1)) := by
              unfold merge_datasets_wide
              rw [List.zip_cons_cons, List.map_cons]
            rw [hmerge] at hM
            have hfoldlen := wide_fold_length pk how _ _ _ hM
            have hr1 : (renameWide t1 pk w1).header.length = t1.header.length := by
              unfold renameWide
              exact List.length_map _ _
            have hsum : (((ts.zip ws).map (fun p => renameWide p.1 pk p.2)).map
                (fun u => u.header.length - 1)).sum
                = (ts.map (fun t => (nonPk pk t).length)).sum := by
              rw [List.map_map]
              have hstep : (ts.zip ws).map
                  ((fun u => u.header.length - 1) ∘ (fun p => renameWide p.1 pk p.2))
                  = (ts.zip ws).map (fun p => (nonPk pk p.1).length) := by
                apply List.map_congr_left
                intro p hp
                have hp1 : p.1 ∈ t1 :: ts := List.mem_cons_of_mem _ (List.of_mem_zip hp).1
                have hcnt := hcount p.1 hp1
                have hfc := length_filter_ne_add_count pk p.1.header
                show (renameWide p.1 pk p.2).header.length - 1 = (nonPk pk p.1).length
                unfold renameWide nonPk
                simp only [List.length_map]
                omega
              rw [hstep]
              have h2 : (ts.zip ws).map (fun p => (nonPk pk p.1).length)
                  = ((ts.zip ws).map Prod.fst).map (fun t => (nonPk pk t).length) := by
                rw [List.map_map]
                rfl
              rw [h2, List.map_fst_zip ts ws (by omega)]
            have ht1 : t1.header.length = 1 + (nonPk pk t1).length := by
              have hcnt := hcount t1 (List.mem_cons_self _ _)
              have hfc := length_filter_ne_add_count pk t1.header
              unfold nonPk
              omega
            rw [hfoldlen, hr1, hsum, ht1]
            simp only [List.map_cons, List.sum_cons]
            omega
  · intro hsane
    obtain ⟨hne, hfa, havoid, hpw⟩ := hsane
    cases tables with
    | nil => exact absurd rfl hne
    | cons t1 ts =>
        cases waves with
        | nil => simp at hlen
        | cons w1 ws =>
            rw [List.zip_cons_cons] at havoid hpw
            have hmemt1 : t1 ∈ t1 :: ts := List.mem_cons_self _ _
            have hav1 : ∀ c ∈ t1.header, c ≠ pk → c ++ waveSuffix w1 ≠ pk :=
              havoid (t1, w1) (List.mem_cons_self _ _)
            have hmerge : merge_datasets_wide (t1 :: ts) pk how (w1 :: ws)
                = ((ts.zip ws).map (fun p => renameWide p.1 pk p.2)).foldl
                    (fun a u => a.bind (fun l => mergePair l u pk how))
                    (some (renameWide t1 pk w1)) := by
              unfold merge_datasets_wide
              rw [List.zip_cons_cons, List.map_cons]
            have h1 : (renameWide t1 pk w1).header.Nodup :=
              renameWide_header_nodup (hfa t1 hmemt1).1 hav1
            have h2 : pk ∈ (renameWide t1 pk w1).header :=
              renameWide_key_mem (hfa t1 hmemt1).2
            have hrs : ∀ u ∈ (ts.zip ws).map (fun p => renameWide p.1 pk p.2),
                u.header.Nodup ∧ pk ∈ u.header := by
              intro u hu
              obtain ⟨p, hp, rfl⟩ := List.mem_map.mp hu
              have hp1 : p.1 ∈ t1 :: ts := List.mem_cons_of_mem _ (List.of_mem_zip hp).1
              have havp := havoid p (List.mem_cons_of_mem _ hp)
              exact ⟨renameWide_header_nodup (hfa p.1 hp1).1 havp,
                renameWide_key_mem (hfa p.1 hp1).2⟩
            have hdisj : ∀ u ∈ (ts.zip ws).map (fun p => renameWide p.1 pk p.2),
                ∀ c ∈ nonPk pk (renameWide t1 pk w1), c ∉ nonPk pk u := by
              intro u hu
              obtain ⟨p, hp, rfl⟩ := List.mem_map.mp hu
              have havp := havoid p (List.mem_cons_of_mem _ hp)
              exact nonPk_renamed_disjoint hav1 havp ((List.pairwise_cons.mp hpw).1 p hp)
            have hpw2 : ((ts.zip ws).map (fun p => renameWide p.1 pk p.2)).Pairwise
                (fun u v => ∀ c ∈ nonPk pk u, c ∉ nonPk pk v) :=
              pairwise_renamed (fun q hq => havoid q (List.mem_cons_of_mem _ hq))
                (List.pairwise_cons.mp hpw).2
            obtain ⟨M, hM, hMn, hMm, hMf⟩ :=
              wide_fold_header pk how ((ts.zip ws).map (fun p => renameWide p.1 pk p.2))
                (renameWide t1 pk w1) h1 h2 hrs hdisj hpw2
            refine ⟨M, by rw [hmerge]; exact hM, ?_⟩
            intro c hc hcp
            have hcm : c ∈ nonPk pk M := List.mem_filter.mpr ⟨hc, by simpa using hcp⟩
            rcases (hMf c).mp hcm with h4 | ⟨u, hu, h5⟩
            · rw [nonPk_renameWide hav1] at h4
              obtain ⟨orig, ho, rfl⟩ := List.mem_map.mp h4
              have hom := List.mem_filter.mp ho
              exact ⟨(t1, w1), by rw [List.zip_cons_cons]; exact List.mem_cons_self _ _,
                orig, hom.1, by simpa using hom.2, rfl⟩
            · obtain ⟨p, hp, rfl⟩ := List.mem_map.mp hu
              have havp := havoid p (List.mem_cons_of_mem _ hp)
              rw [nonPk_renameWide havp] at h5
              obtain ⟨orig, ho, rfl⟩ := List.mem_map.mp h5
              have hom := List.mem_filter.mp ho
              exact ⟨p, by rw [List.zip_cons_cons]; exact List.mem_cons_of_mem _ hp,
                orig, hom.1, by simpa using hom.2, rfl⟩

/-- C3 witness: two one-row tables with distinct waves merge, for the
inner mode, into 1 plus 2 columns, each non-key column a suffixed
original. -/
theorem wide_column_count_witness :
    ∃ M, merge_datasets_wide
        ([⟨["id", "x"], [[some (Val.intV 1), some (Val.intV 10)]]⟩,
          ⟨["id", "y"], [[some (Val.intV 1), some (Val.intV 100)]]⟩] : List Table)
        "id" .inner [1, 2] = some M ∧
      M.header.length = 1 + (([⟨["id", "x"], [[some (Val.intV 1), some (Val.intV 10)]]⟩,
          ⟨["id", "y"], [[some (Val.intV 1), some (Val.intV 100)]]⟩] : List Table).map
        (fun t => (nonPk "id" t).length)).sum ∧
      ∀ c ∈ M.header, c ≠ "id" →
        ∃ p ∈ ([⟨["id", "x"], [[some (Val.intV 1), some (Val.intV 10)]]⟩,
            ⟨["id", "y"], [[some (Val.intV 1), some (Val.intV 100)]]⟩] : List Table).zip [1, 2],
          ∃ orig, orig ∈ p.1.header ∧ orig ≠ "id" ∧ c = orig ++ waveSuffix p.2 := by
  have h := wide_column_count
    ([⟨["id", "x"], [[some (Val.intV 1), some (Val.intV 10)]]⟩,
      ⟨["id", "y"], [[some (Val.intV 1), some (Val.intV 100)]]⟩] : List Table)
    "id" .inner [1, 2] (by decide) (by decide)
  obtain ⟨M, hM, hattr⟩ := h.2 (by
    refine ⟨by decide, by decide, by decide, ?_⟩
    decide)
  exact ⟨M, hM, h.1 M hM, hattr⟩

/-- C3 counterexample: with the same wave label 1 on two tables that
share the non-key column x, the merged header holds the column
x_w1_x, which is not the identifier and is not any original column
name with the wave suffix appended: pd.merge decorated the collision
with _x, so the claim that every non-identifier output column carries
its source wave suffix fails. -/
theorem c3_counterexample :
    merge_datasets_wide
        ([⟨["id", "x"], [[some (Val.intV 1), some (Val.intV 10)]]⟩,
          ⟨["id", "x"], [[some (Val.intV 1), some (Val.intV 20)]]⟩] : List Table)
        "id" .inner [1, 1]
      = some ⟨["id", "x_w1_x", "x_w1_y"],
          [[some (Val.intV 1), some (Val.intV 10), some (Val.intV 20)]]⟩ ∧
    "x_w1_x" ∈ (["id", "x_w1_x", "x_w1_y"] : List String) ∧
    "x_w1_x" ≠ "id" ∧
    (∀ orig ∈ (["id", "x"] : List String), "x_w1_x" ≠ orig ++ waveSuffix 1) := by
  decide

/-! ## String lemmas for the wave-collision claim (C4) -/

/-- getLast? of an append with a right part known to end somewhere. -/
theorem getLast?_append_some {α : Type} {l2 : List α} {x : α}
    (h : l2.getLast? = some x) (l1 : List α) : (l1 ++ l2).getLast? = some x := by
  have hne : l2 ≠ [] := by
    intro hq; rw [hq] at h; simp at h
  rw [List.getLast?_append_of_ne_nil l1 hne]
  exact h

/-- The digit accumulator of Nat.toDigitsCore keeps the last element of
a nonempty accumulator: digits are consed onto the front. -/
theorem toDigitsCore_getLast (b : Nat) :
    ∀ (f n : Nat) (l : List Char) (x : Char),
      (Nat.toDigitsCore b f n (l ++ [x])).getLast? = some x := by
  intro f
  induction f with
  | zero =>
      intro n l x
      have h0 : ([x] : List Char).getLast? = some x := rfl
      show (l ++ [x]).getLast? = some x
      exact getLast?_append_some h0 l
  | succ f ih =>
      intro n l x
      show (if n / b = 0 then Nat.digitChar (n % b) :: (l ++ [x])
          else Nat.toDigitsCore b f (n / b) (Nat.digitChar (n % b) :: (l ++ [x]))).getLast?
        = some x
      have h0 : ([x] : List Char).getLast? = some x := rfl
      by_cases h : n / b = 0
      · rw [if_pos h, ← List.cons_append]
        exact getLast?_append_some h0 (Nat.digitChar (n % b) :: l)
      · rw [if_neg h, ← List.cons_append]
        exact ih (n / b) (Nat.digitChar (n % b) :: l) x

/-- A wave suffix ends in the final decimal digit of the wave number. -/
theorem waveSuffix_last (w : Nat) :
    (waveSuffix w).data.getLast? = some (Nat.digitChar (w % 10)) := by
  have hrep : (Nat.toDigits 10 w).getLast? = some (Nat.digitChar (w % 10)) := by
    show (Nat.toDigitsCore 10 (w + 1) w []).getLast? = some (Nat.digitChar (w % 10))
    show (if w / 10 = 0 then Nat.digitChar (w % 10) :: []
        else Nat.toDigitsCore 10 w (w / 10) (Nat.digitChar (w % 10) :: [])).getLast?
      = some (Nat.digitChar (w % 10))
    by_cases h : w / 10 = 0
    · rw [if_pos h]; rfl
    · rw [if_neg h]
      exact toDigitsCore_getLast 10 w (w / 10) [] (Nat.digitChar (w % 10))
  show ("_w".data ++ (Nat.toDigits 10 w)).getLast? = some (Nat.digitChar (w % 10))
  exact getLast?_append_some hrep _

/-- Decimal digit characters are neither x nor y. -/
theorem digitChar_mod10_ne_xy (w : Nat) :
    Nat.digitChar (w % 10) ≠ 'x' ∧ Nat.digitChar (w % 10) ≠ 'y' := by
  have h : w % 10 < 10 := Nat.mod_lt _ (by omega)
  have hall : ∀ m, m < 10 → Nat.digitChar m ≠ 'x' ∧ Nat.digitChar m ≠ 'y' := by decide
  exact hall _ h

/-- Two appends whose right parts end in distinct characters differ. -/
theorem string_append_ne_of_last {s t : String} {cs ct : Char}
    (hs : s.data.getLast? = some cs) (ht : t.data.getLast? = some ct)
    (hne : cs ≠ ct) (a b : String) : a ++ s ≠ b ++ t := by
  intro h
  have hd := congrArg String.data h
  rw [String.data_append, String.data_append] at hd
  have h1 := getLast?_append_some hs a.data
  have h2 := getLast?_append_some ht b.data
  rw [hd, h2] at h1
  exact hne (Option.some.inj h1.symm)

/-- A pandas merge suffix _x never rebuilds a wave-suffixed name: the
former ends in x, the latter in a digit. -/
theorem append_x_ne_append_wave (a b : String) (w : Nat) : a ++ "_x" ≠ b ++ waveSuffix w :=
  string_append_ne_of_last (show ("_x" : String).data.getLast? = some 'x' by decide)
    (waveSuffix_last w) (fun hq => (digitChar_mod10_ne_xy w).1 hq.symm) a b

/-- A pandas merge suffix _y never rebuilds a wave-suffixed name: the
former ends in y, the latter in a digit. -/
theorem append_y_ne_append_wave (a b : String) (w : Nat) : a ++ "_y" ≠ b ++ waveSuffix w :=
  string_append_ne_of_last (show ("_y" : String).data.getLast? = some 'y' by decide)
    (waveSuffix_last w) (fun hq => (digitChar_mod10_ne_xy w).2 hq.symm) a b

/-- The two pandas merge suffixes produce distinct names. -/
theorem append_x_ne_append_y (a b : String) : a ++ "_x" ≠ b ++ "_y" :=
  string_append_ne_of_last (show ("_x" : String).data.getLast? = some 'x' by decide)
    (show ("_y" : String).data.getLast? = some 'y' by decide) (by decide) a b

/-! ## Positional lemmas for the wave-collision claim (C4) -/

/-- idxOf? through a map hitting the target exactly at the occurrences
of a designated source name. -/
theorem idxOf?_map_iff_tgt {f : String → String} {l : List String} {c c2 : String}
    (h : ∀ d ∈ l, (f d = c2 ↔ d = c)) : idxOf? c2 (l.map f) = idxOf? c l := by
  induction l with
  | nil => rfl
  | cons d ds ih =>
      simp only [List.map_cons, idxOf?]
      by_cases hd : d = c
      · rw [if_pos ((h d (List.mem_cons_self _ _)).mpr hd), if_pos hd]
      · rw [if_neg (fun hq => hd ((h d (List.mem_cons_self _ _)).mp hq)), if_neg hd]
        rw [ih (fun e he => h e (List.mem_cons_of_mem _ he))]

/-- getD below an erased index. -/
theorem getD_eraseIdx_lt {α : Type} :
    ∀ (l : List α) {i j : Nat}, i < j → ∀ (d : α), (l.eraseIdx j).getD i d = l.getD i d := by
  intro l
  induction l with
  | nil => intro i j _ d; rfl
  | cons a as ih =>
      intro i j hij d
      cases j with
      | zero => omega
      | succ j2 =>
          cases i with
          | zero => rfl
          | succ i2 =>
              show (as.eraseIdx j2).getD i2 d = as.getD i2 d
              exact ih (by omega) d

/-- getD at or above an erased index reads one position further. -/
theorem getD_eraseIdx_ge {α : Type} :
    ∀ (l : List α) {i j : Nat}, j ≤ i → ∀ (d : α),
      (l.eraseIdx j).getD i d = l.getD (i + 1) d := by
  intro l
  induction l with
  | nil => intro i j _ d; rfl
  | cons a as ih =>
      intro i j hij d
      cases j with
      | zero => rfl
      | succ j2 =>
          cases i with
          | zero => omega
          | succ i2 =>
              show (as.eraseIdx j2).getD i2 d = as.getD (i2 + 1) d
              exact ih (by omega) d

/-- A first occurrence below an erased index survives unchanged. -/
theorem idxOf?_eraseIdx_lt {t : String} :
    ∀ {l : List String} {i j : Nat}, i < j → idxOf? t l = some i →
      idxOf? t (l.eraseIdx j) = some i := by
  intro l
  induction l with
  | nil => intro i j _ h; simp [idxOf?] at h
  | cons d ds ih =>
      intro i j hij hi
      cases j with
      | zero => omega
      | succ j2 =>
          show idxOf? t (d :: ds.eraseIdx j2) = some i
          by_cases hd : d = t
          · simp only [idxOf?, if_pos hd] at hi ⊢
            exact hi
          · simp only [idxOf?, if_neg hd, Option.map_eq_some'] at hi ⊢
            obtain ⟨i2, hi2, rfl⟩ := hi
            exact ⟨i2, ih (by omega) hi2, rfl⟩

/-- A first occurrence above an erased index moves down one place. -/
theorem idxOf?_eraseIdx_gt {t : String} :
    ∀ {l : List String} {i j : Nat}, j < i → idxOf? t l = some i →
      idxOf? t (l.eraseIdx j) = some (i - 1) := by
  intro l
  induction l with
  | nil => intro i j _ h; simp [idxOf?] at h
  | cons d ds ih =>
      intro i j hij hi
      by_cases hd : d = t
      · simp only [idxOf?, if_pos hd, Option.some.injEq] at hi
        omega
      · simp only [idxOf?, if_neg hd, Option.map_eq_some'] at hi
        obtain ⟨i2, hi2, rfl⟩ := hi
        cases j with
        | zero =>
            show idxOf? t ds = some (i2 + 1 - 1)
            simpa using hi2
        | succ j2 =>
            show idxOf? t (d :: ds.eraseIdx j2) = some (i2 + 1 - 1)
            simp only [idxOf?, if_neg hd, Option.map_eq_some']
            exact ⟨i2 - 1, ih (by omega) hi2, by omega⟩

/-- Erasing one column position leaves the cells of the other columns
in place. -/
theorem cellAt_eraseIdx {hdr : List String} {r : List Cell} {t : String} {i j : Nat}
    (ht : idxOf? t hdr = some i) (hij : i ≠ j) :
    cellAt (hdr.eraseIdx j) (r.eraseIdx j) t = cellAt hdr r t := by
  rcases Nat.lt_or_ge i j with hlt | hge
  · unfold cellAt
    rw [idxOf?_eraseIdx_lt hlt ht, ht]
    exact getD_eraseIdx_lt r hlt none
  · have hgt : j < i := by omega
    unfold cellAt
    rw [idxOf?_eraseIdx_gt hgt ht, ht]
    show (r.eraseIdx j).getD (i - 1) none = r.getD i none
    have hii : i - 1 + 1 = i := by omega
    have hg := getD_eraseIdx_ge r (show j ≤ i - 1 by omega) (none : Cell)
    rw [hg, hii]

/-- getD on an append, offset into the right part. -/
theorem getD_append_add {α : Type} :
    ∀ (l1 l2 : List α) (i : Nat) (d : α), (l1 ++ l2).getD (i + l1.length) d = l2.getD i d := by
  intro l1
  induction l1 with
  | nil => intro l2 i d; simp
  | cons a as ih =>
      intro l2 i d
      show (as ++ l2).getD (i + as.length) d = l2.getD i d
      exact ih l2 i d

/-- The wave renaming maps a header name to the suffixed form of a
designated non-key name exactly at that name. -/
theorem wave_rename_iff {hdr : List String} {pk c : String} {w : Nat}
    (hav : ∀ d ∈ hdr, d ≠ pk → d ++ waveSuffix w ≠ pk)
    (hc : c ∈ hdr) (hcp : c ≠ pk) :
    ∀ d ∈ hdr, ((if d = pk then d else d ++ waveSuffix w) = c ++ waveSuffix w ↔ d = c) := by
  intro d hd
  constructor
  · intro hq
    by_cases hdp : d = pk
    · rw [hdp, if_pos rfl] at hq
      exact absurd hq.symm (hav c hc hcp)
    · rw [if_neg hdp] at hq
      exact string_append_right_cancel hq
  · intro hq
    rw [hq, if_neg hcp]

/-- C4 (amended): for ANY two rectangular input tables with
duplicate-free headers, both containing the identifier, sharing a
non-identifier column c, and assigned the same wave label w, the wide
merge of the pair succeeds in every join mode, its output header
contains the collided wave-suffixed name ZERO times and instead
contains that name decorated with the pandas default suffixes _x and
_y; in the inner mode every output row carries, under the decorated
names, exactly the values some left row and some right row hold for c,
so both sides survive and nothing is overwritten.  The side conditions
only forbid the identifier name itself from looking like a suffixed
column. -/
theorem wide_wave_collision_keeps_both (L R : Table) (pk c : String) (w : Nat) (how : JoinType)
    (hLn : L.header.Nodup) (hRn : R.header.Nodup)
    (hLm : pk ∈ L.header) (hRm : pk ∈ R.header) (hLwf : L.WF)
    (hcL : c ∈ L.header) (hcR : c ∈ R.header) (hcp : c ≠ pk)
    (havL : ∀ d ∈ L.header, d ≠ pk → d ++ waveSuffix w ≠ pk)
    (havR : ∀ d ∈ R.header, d ≠ pk → d ++ waveSuffix w ≠ pk)
    (hpx : pk ≠ c ++ waveSuffix w ++ "_x") (hpy : pk ≠ c ++ waveSuffix w ++ "_y") :
    ∃ M : Table,
      merge_datasets_wide [L, R] pk how [w, w] = some M ∧
      M.header.count (c ++ waveSuffix w) = 0 ∧
      c ++ waveSuffix w ++ "_x" ∈ M.header ∧
      c ++ waveSuffix w ++ "_y" ∈ M.header ∧
      (how = JoinType.inner → ∀ row ∈ M.rows, ∃ lrow ∈ L.rows, ∃ rrow ∈ R.rows,
        cellAt M.header row (c ++ waveSuffix w ++ "_x") = cellAt L.header lrow c ∧
        cellAt M.header row (c ++ waveSuffix w ++ "_y") = cellAt R.header rrow c) := by
  have hcsp : c ++ waveSuffix w ≠ pk := havL c hcL hcp
  have hsufRmem : c ++ waveSuffix w ∈ (renameWide R pk w).header := by
    show c ++ waveSuffix w ∈ R.header.map (fun d => if d = pk then d else d ++ waveSuffix w)
    exact List.mem_map.mpr ⟨c, hcR, by rw [if_neg hcp]⟩
  have hsufLmem : c ++ waveSuffix w ∈ (renameWide L pk w).header := by
    show c ++ waveSuffix w ∈ L.header.map (fun d => if d = pk then d else d ++ waveSuffix w)
    exact List.mem_map.mpr ⟨c, hcL, by rw [if_neg hcp]⟩
  -- pointwise values of the two pandas suffix maps
  have hg1pk : suffixIf (renameWide R pk w).header pk "_x" pk = pk := by
    unfold suffixIf
    rw [if_neg (fun hh => hh.1 rfl)]
  have hg1in : ∀ a : String, a ≠ pk → a ∈ (renameWide R pk w).header →
      suffixIf (renameWide R pk w).header pk "_x" a = a ++ "_x" := by
    intro a hap ham
    unfold suffixIf
    rw [if_pos ⟨hap, ham⟩]
  have hg1out : ∀ a : String, a ∉ (renameWide R pk w).header →
      suffixIf (renameWide R pk w).header pk "_x" a = a := by
    intro a ham
    unfold suffixIf
    rw [if_neg (fun hh => ham hh.2)]
  have hg2in : ∀ a : String, a ≠ pk → a ∈ (renameWide L pk w).header →
      suffixIf (renameWide L pk w).header pk "_y" a = a ++ "_y" := by
    intro a hap ham
    unfold suffixIf
    rw [if_pos ⟨hap, ham⟩]
  have hg2out : ∀ a : String, a ∉ (renameWide L pk w).header →
      suffixIf (renameWide L pk w).header pk "_y" a = a := by
    intro a ham
    unfold suffixIf
    rw [if_neg (fun hh => ham hh.2)]
  -- the merge succeeds
  have hcnt : (renameWide L pk w).header.count pk = 1 ∧
      (renameWide R pk w).header.count pk = 1 :=
    ⟨List.count_eq_one_of_mem (renameWide_header_nodup hLn havL) (renameWide_key_mem hLm),
     List.count_eq_one_of_mem (renameWide_header_nodup hRn havR) (renameWide_key_mem hRm)⟩
  have hmrg : merge_datasets_wide [L, R] pk how [w, w]
      = some ⟨mergedHeader (renameWide L pk w) (renameWide R pk w) pk,
              mergeRows (renameWide L pk w) (renameWide R pk w) pk how⟩ := by
    show mergePair (renameWide L pk w) (renameWide R pk w) pk how
      = some ⟨mergedHeader (renameWide L pk w) (renameWide R pk w) pk,
              mergeRows (renameWide L pk w) (renameWide R pk w) pk how⟩
    unfold mergePair
    rw [if_pos hcnt]
  -- the right block of the merged header is the suffixed non-key right names
  have hsans : sansKeyHeader (renameWide R pk w) pk
      = (nonPk pk R).map (fun e0 => e0 ++ waveSuffix w) := by
    rw [sansKeyHeader_eq_nonPk (renameWide_header_nodup hRn havR) (renameWide_key_mem hRm)]
    exact nonPk_renameWide havR
  -- the left block sends renamed names to the _x target exactly at the collided name
  have hg1iff : ∀ e ∈ (renameWide L pk w).header,
      (suffixIf (renameWide R pk w).header pk "_x" e = c ++ waveSuffix w ++ "_x"
        ↔ e = c ++ waveSuffix w) := by
    intro e he
    have he2 : e ∈ L.header.map (fun d => if d = pk then d else d ++ waveSuffix w) := he
    obtain ⟨d, hd, heq⟩ := List.mem_map.mp he2
    have heq2 : (if d = pk then d else d ++ waveSuffix w) = e := heq
    by_cases hdp : d = pk
    · rw [hdp, if_pos rfl] at heq2
      subst heq2
      rw [hg1pk]
      exact ⟨fun hq => absurd hq hpx, fun hq => absurd hq.symm hcsp⟩
    · rw [if_neg hdp] at heq2
      subst heq2
      by_cases hmem : d ++ waveSuffix w ∈ (renameWide R pk w).header
      · rw [hg1in (d ++ waveSuffix w) (havL d hd hdp) hmem]
        exact ⟨fun hq => string_append_right_cancel hq, fun hq => by rw [hq]⟩
      · rw [hg1out (d ++ waveSuffix w) hmem]
        constructor
        · intro hq
          exact absurd hq.symm (append_x_ne_append_wave (c ++ waveSuffix w) d w)
        · intro hq
          have hdc : d = c := string_append_right_cancel hq
          rw [hdc] at hmem
          exact absurd hsufRmem hmem
  -- the right block sends suffixed names to the _y target exactly at the collided name
  have hg2iff : ∀ e ∈ sansKeyHeader (renameWide R pk w) pk,
      (suffixIf (renameWide L pk w).header pk "_y" e = c ++ waveSuffix w ++ "_y"
        ↔ e = c ++ waveSuffix w) := by
    intro e he
    rw [hsans] at he
    obtain ⟨e0, he0, heq⟩ := List.mem_map.mp he
    have heq2 : e0 ++ waveSuffix w = e := heq
    subst heq2
    have he0h : e0 ∈ R.header := (List.mem_filter.mp he0).1
    have he0p : e0 ≠ pk := by simpa using (List.mem_filter.mp he0).2
    by_cases hmem : e0 ++ waveSuffix w ∈ (renameWide L pk w).header
    · rw [hg2in (e0 ++ waveSuffix w) (havR e0 he0h he0p) hmem]
      exact ⟨fun hq => string_append_right_cancel hq, fun hq => by rw [hq]⟩
    · rw [hg2out (e0 ++ waveSuffix w) hmem]
      constructor
      · intro hq
        exact absurd hq.symm (append_y_ne_append_wave (c ++ waveSuffix w) e0 w)
      · intro hq
        have hec : e0 = c := string_append_right_cancel hq
        rw [hec] at hmem
        exact absurd hsufLmem hmem
  -- the collided undecorated name is absent from the left block
  have hnol : c ++ waveSuffix w
      ∉ ((renameWide L pk w).header.map (suffixIf (renameWide R pk w).header pk "_x")) := by
    intro hmem0
    obtain ⟨e, he, heq0⟩ := List.mem_map.mp hmem0
    have he2 : e ∈ L.header.map (fun d => if d = pk then d else d ++ waveSuffix w) := he
    obtain ⟨d, hd, heq⟩ := List.mem_map.mp he2
    have heq2 : (if d = pk then d else d ++ waveSuffix w) = e := heq
    by_cases hdp : d = pk
    · rw [hdp, if_pos rfl] at heq2
      subst heq2
      rw [hg1pk] at heq0
      exact hcsp heq0.symm
    · rw [if_neg hdp] at heq2
      subst heq2
      by_cases hmem : d ++ waveSuffix w ∈ (renameWide R pk w).header
      · rw [hg1in (d ++ waveSuffix w) (havL d hd hdp) hmem] at heq0
        exact append_x_ne_append_wave (d ++ waveSuffix w) c w heq0
      · rw [hg1out (d ++ waveSuffix w) hmem] at heq0
        have hdc : d = c := string_append_right_cancel heq0
        rw [hdc] at hmem
        exact hmem hsufRmem
  -- and from the right block
  have hnor : c ++ waveSuffix w
      ∉ ((sansKeyHeader (renameWide R pk w) pk).map
          (suffixIf (renameWide L pk w).header pk "_y")) := by
    intro hmem0
    obtain ⟨e, he, heq0⟩ := List.mem_map.mp hmem0
    rw [hsans] at he
    obtain ⟨e0, he0, heq⟩ := List.mem_map.mp he
    have heq2 : e0 ++ waveSuffix w = e := heq
    subst heq2
    have he0h : e0 ∈ R.header := (List.mem_filter.mp he0).1
    have he0p : e0 ≠ pk := by simpa using (List.mem_filter.mp he0).2
    by_cases hmem : e0 ++ waveSuffix w ∈ (renameWide L pk w).header
    · rw [hg2in (e0 ++ waveSuffix w) (havR e0 he0h he0p) hmem] at heq0
      exact append_y_ne_append_wave (e0 ++ waveSuffix w) c w heq0
    · rw [hg2out (e0 ++ waveSuffix w) hmem] at heq0
      have hec : e0 = c := string_append_right_cancel heq0
      rw [hec] at hmem
      exact hmem hsufLmem
  -- the _y target is absent from the left block
  have hnoly : c ++ waveSuffix w ++ "_y"
      ∉ ((renameWide L pk w).header.map (suffixIf (renameWide R pk w).header pk "_x")) := by
    intro hmem0
    obtain ⟨e, he, heq0⟩ := List.mem_map.mp hmem0
    have he2 : e ∈ L.header.map (fun d => if d = pk then d else d ++ waveSuffix w) := he
    obtain ⟨d, hd, heq⟩ := List.mem_map.mp he2
    have heq2 : (if d = pk then d else d ++ waveSuffix w) = e := heq
    by_cases hdp : d = pk
    · rw [hdp, if_pos rfl] at heq2
      subst heq2
      rw [hg1pk] at heq0
      exact hpy heq0
    · rw [if_neg hdp] at heq2
      subst heq2
      by_cases hmem : d ++ waveSuffix w ∈ (renameWide R pk w).header
      · rw [hg1in (d ++ waveSuffix w) (havL d hd hdp) hmem] at heq0
        exact append_x_ne_append_y (d ++ waveSuffix w) (c ++ waveSuffix w) heq0
      · rw [hg1out (d ++ waveSuffix w) hmem] at heq0
        exact append_y_ne_append_wave (c ++ waveSuffix w) d w heq0.symm
  -- the decorated names are present
  have hmemx : c ++ waveSuffix w ++ "_x"
      ∈ ((renameWide L pk w).header.map (suffixIf (renameWide R pk w).header pk "_x")) :=
    List.mem_map.mpr ⟨c ++ waveSuffix w, hsufLmem,
      hg1in (c ++ waveSuffix w) hcsp hsufRmem⟩
  have hmemsansc : c ++ waveSuffix w ∈ sansKeyHeader (renameWide R pk w) pk := by
    rw [hsans]
    exact List.mem_map.mpr ⟨c, List.mem_filter.mpr ⟨hcR, by simp [hcp]⟩, rfl⟩
  have hmemy : c ++ waveSuffix w ++ "_y"
      ∈ ((sansKeyHeader (renameWide R pk w) pk).map
          (suffixIf (renameWide L pk w).header pk "_y")) :=
    List.mem_map.mpr ⟨c ++ waveSuffix w, hmemsansc,
      hg2in (c ++ waveSuffix w) hcsp hsufLmem⟩
  refine ⟨⟨mergedHeader (renameWide L pk w) (renameWide R pk w) pk,
           mergeRows (renameWide L pk w) (renameWide R pk w) pk how⟩,
    hmrg, ?_, ?_, ?_, ?_⟩
  · -- zero occurrences of the collided suffixed name
    apply List.count_eq_zero.mpr
    intro hmem0
    have hmem1 : c ++ waveSuffix w
        ∈ ((renameWide L pk w).header.map (suffixIf (renameWide R pk w).header pk "_x"))
          ++ ((sansKeyHeader (renameWide R pk w) pk).map
            (suffixIf (renameWide L pk w).header pk "_y")) := hmem0
    rcases List.mem_append.mp hmem1 with h1 | h2
    · exact hnol h1
    · exact hnor h2
  · -- the _x decorated name is present
    show c ++ waveSuffix w ++ "_x"
      ∈ mergedHeader (renameWide L pk w) (renameWide R pk w) pk
    unfold mergedHeader
    exact List.mem_append.mpr (Or.inl hmemx)
  · -- the _y decorated name is present
    show c ++ waveSuffix w ++ "_y"
      ∈ mergedHeader (renameWide L pk w) (renameWide R pk w) pk
    unfold mergedHeader
    exact List.mem_append.mpr (Or.inr hmemy)
  · -- inner rows: both source values survive under the decorated names
    intro hhow row hrow
    subst hhow
    have hrow2 : row ∈ innerJoinRows (renameWide L pk w) (renameWide R pk w) pk := hrow
    unfold innerJoinRows at hrow2
    obtain ⟨l, hl, hr2⟩ := mem_cmap.mp hrow2
    obtain ⟨rr, hrrm, heqrow⟩ := List.mem_map.mp hr2
    have hlL : l ∈ L.rows := hl
    have hrrm2 : rr ∈ (renameWide R pk w).rows.filter
        (fun r => decide (cellAt (renameWide R pk w).header r pk
          = cellAt (renameWide L pk w).header l pk)) := hrrm
    have hrrR : rr ∈ R.rows := (List.mem_filter.mp hrrm2).1
    have heqrow2 : l ++ sansKeyRow (renameWide R pk w) pk rr = row := heqrow
    subst heqrow2
    refine ⟨l, hlL, rr, hrrR, ?_, ?_⟩
    · -- the _x column reads the left value of c
      obtain ⟨i, hi⟩ := idxOf?_isSome_of_mem hcL
      obtain ⟨hilt, _⟩ := idxOf?_some hi
      have hstep2 : idxOf? (c ++ waveSuffix w) (renameWide L pk w).header = some i := by
        show idxOf? (c ++ waveSuffix w)
          (L.header.map (fun d => if d = pk then d else d ++ waveSuffix w)) = some i
        rw [idxOf?_map_iff_tgt (wave_rename_iff havL hcL hcp)]
        exact hi
      have hidxH : idxOf? (c ++ waveSuffix w ++ "_x")
          (mergedHeader (renameWide L pk w) (renameWide R pk w) pk) = some i := by
        unfold mergedHeader
        rw [idxOf?_append_of_mem _ hmemx, idxOf?_map_iff_tgt hg1iff]
        exact hstep2
      show cellAt (mergedHeader (renameWide L pk w) (renameWide R pk w) pk)
          (l ++ sansKeyRow (renameWide R pk w) pk rr) (c ++ waveSuffix w ++ "_x")
        = cellAt L.header l c
      unfold cellAt
      rw [hidxH, hi]
      exact getD_append_left (by rw [hLwf l hlL]; exact hilt) none
    · -- the _y column reads the right value of c
      obtain ⟨i2, hi2⟩ := idxOf?_isSome_of_mem hmemsansc
      obtain ⟨j, hj⟩ := idxOf?_isSome_of_mem (renameWide_key_mem hRm)
      obtain ⟨i3, hi3⟩ := idxOf?_isSome_of_mem hsufRmem
      have hne3 : i3 ≠ j := by
        intro hq
        have h1 := (idxOf?_some hi3).2
        have h2 := (idxOf?_some hj).2
        rw [hq] at h1
        rw [h1] at h2
        exact hcsp h2
      have hcell1 : cellAt (sansKeyHeader (renameWide R pk w) pk)
          (sansKeyRow (renameWide R pk w) pk rr) (c ++ waveSuffix w)
          = cellAt (renameWide R pk w).header rr (c ++ waveSuffix w) := by
        unfold sansKeyHeader sansKeyRow
        rw [hj]
        exact cellAt_eraseIdx hi3 hne3
      have hcell2 : cellAt (renameWide R pk w).header rr (c ++ waveSuffix w)
          = cellAt R.header rr c := by
        have hmap : idxOf? (c ++ waveSuffix w) (renameWide R pk w).header
            = idxOf? c R.header := by
          show idxOf? (c ++ waveSuffix w)
            (R.header.map (fun d => if d = pk then d else d ++ waveSuffix w))
            = idxOf? c R.header
          exact idxOf?_map_iff_tgt (wave_rename_iff havR hcR hcp)
        unfold cellAt
        rw [hmap]
      have hidxHy : idxOf? (c ++ waveSuffix w ++ "_y")
          (mergedHeader (renameWide L pk w) (renameWide R pk w) pk)
          = some (i2 + L.header.length) := by
        unfold mergedHeader
        rw [idxOf?_append_of_not_mem _ hnoly, idxOf?_map_iff_tgt hg2iff, hi2]
        simp [renameWide]
      show cellAt (mergedHeader (renameWide L pk w) (renameWide R pk w) pk)
          (l ++ sansKeyRow (renameWide R pk w) pk rr) (c ++ waveSuffix w ++ "_y")
        = cellAt R.header rr c
      rw [← hcell2, ← hcell1]
      unfold cellAt
      rw [hidxHy, hi2]
      show (l ++ sansKeyRow (renameWide R pk w) pk rr).getD (i2 + L.header.length) none
        = (sansKeyRow (renameWide R pk w) pk rr).getD i2 none
      have hlen : l.length = L.header.length := hLwf l hlL
      rw [← hlen]
      exact getD_append_add l (sansKeyRow (renameWide R pk w) pk rr) i2 none
/-- C4 witness: the general collision theorem applied to two concrete
single-row tables sharing column x under the common wave label 1. -/
theorem wide_wave_collision_keeps_both_witness :
    ∃ M : Table,
      merge_datasets_wide
          ([⟨["id", "x"], [[some (Val.intV 1), some (Val.intV 10)]]⟩,
            ⟨["id", "x"], [[some (Val.intV 1), some (Val.intV 20)]]⟩] : List Table)
          "id" JoinType.inner [1, 1] = some M ∧
      M.header.count ("x" ++ waveSuffix 1) = 0 ∧
      "x" ++ waveSuffix 1 ++ "_x" ∈ M.header ∧
      "x" ++ waveSuffix 1 ++ "_y" ∈ M.header ∧
      (JoinType.inner = JoinType.inner →
        ∀ row ∈ M.rows,
          ∃ lrow ∈ ([[some (Val.intV 1), some (Val.intV 10)]] : List (List Cell)),
          ∃ rrow ∈ ([[some (Val.intV 1), some (Val.intV 20)]] : List (List Cell)),
            cellAt M.header row ("x" ++ waveSuffix 1 ++ "_x")
              = cellAt ["id", "x"] lrow "x" ∧
            cellAt M.header row ("x" ++ waveSuffix 1 ++ "_y")
              = cellAt ["id", "x"] rrow "x") :=
  wide_wave_collision_keeps_both
    ⟨["id", "x"], [[some (Val.intV 1), some (Val.intV 10)]]⟩
    ⟨["id", "x"], [[some (Val.intV 1), some (Val.intV 20)]]⟩
    "id" "x" 1 JoinType.inner
    (by decide) (by decide) (by decide) (by decide) (by decide)
    (by decide) (by decide) (by decide) (by decide) (by decide)
    (by decide) (by decide)

/-- C4 counterexample: with colliding wave labels, the merged output
contains the collided suffixed name x_w1 zero times, not exactly once,
and the earlier value 70 is retained rather than overwritten by the
later 80. -/
theorem c4_counterexample :
    merge_datasets_wide
        ([⟨["id", "x"], [[some (Val.intV 7), some (Val.intV 70)]]⟩,
          ⟨["id", "x"], [[some (Val.intV 7), some (Val.intV 80)]]⟩] : List Table)
        "id" .inner [1, 1]
      = some ⟨["id", "x_w1_x", "x_w1_y"],
          [[some (Val.intV 7), some (Val.intV 70), some (Val.intV 80)]]⟩ ∧
    (["id", "x_w1_x", "x_w1_y"] : List String).count "x_w1" = 0 ∧
    some (Val.intV 70)
      ∈ ([some (Val.intV 7), some (Val.intV 70), some (Val.intV 80)] : List Cell) := by
  decide
